import Mathlib

/-!
# bingo: sensitive-file checker

A shallow embedding of `main.go` (rule compilation, `CheckFile`) and
`internal/npmrc.go` (`CheckNPMRC`) of the bingo pre-commit scanner, together with
the parts of the Go standard library the code calls (`regexp.QuoteMeta`,
`strings.ReplaceAll`, `strings.Contains`, `filepath.Base`, `filepath.Ext`, and the
fragment of `regexp` that translated patterns can reach).

Modelling conventions.
* A Go string is a list of Unicode code points (`Str`): the rule file is decoded by
  `encoding/json`, which only produces valid UTF-8, and every byte the code inspects
  (`/`, `.`, `\`, the regexp metacharacters) is ASCII, so byte-wise and rune-wise
  scans agree.
* Paths follow the Unix `path/filepath`: the separator is `/`, there is no volume name.
* A nil-pointer dereference (calling `MatchString` on a missing registry entry)
  is the result `none` of `CheckFile`.
* The file system enters `CheckNPMRC` as a function from a path to the outcome of
  opening the file and scanning it line by line; reading and decoding the rules file
  enters `NewFileChecker` as its outcome.
* `CheckFiles` is a step relation on the pending goroutines, the buffered channel and
  the collected violations; a result is what a run to the end leaves collected.
* `regexp.Compile` and `MatchString` are modelled on the patterns made of literal
  runes, escaped punctuation, `^`, `$` and `.`; `Compile_translatePattern` shows that
  every translated pattern lies in this fragment.
* `Compile` is the compiler without the size limits of the Go parser, and
  `NewFileChecker` is written with it: it describes `NewFileChecker` on rule lists whose
  regex-kind patterns are within those limits. The limits themselves are
  `parserAccepts`, the size accounting of `regexp/syntax` (the counters `numRegexp` and
  `numRunes`, the constants `maxSize` and `maxRunes`); `CompileWithLimits` is the
  compiler with them and `NewFileCheckerWith CompileWithLimits` is `NewFileChecker` on
  every rule list.
-/

namespace Bingo

/-- A Go string, as its sequence of runes. -/
abbrev Str := List Char

/-! ## Go standard library: `strings` and `regexp.QuoteMeta` -/

/-- The constant `specialBytes` of Go package `regexp`. -/
def specialBytes : Str :=
  ['\\', '.', '+', '*', '?', '(', ')', '|', '[', ']', '{', '}', '^', '$']

/-- Go `regexp.special`: is the character a regexp metacharacter. -/
def special (c : Char) : Bool := specialBytes.contains c

/-- Go `regexp.QuoteMeta`: put a backslash before every metacharacter. -/
def QuoteMeta : Str → Str
  | [] => []
  | c :: s => if special c then '\\' :: c :: QuoteMeta s else c :: QuoteMeta s

/-- The scan of `strings.ReplaceAll` for a non-empty `old`: the first argument counts
the characters of the occurrence just replaced that are still to be skipped; with
nothing to skip, an occurrence of `old` at the current position is replaced by `new`
and the scan resumes after it, otherwise the current character is copied. -/
def replaceFrom (old new : Str) : Nat → Str → Str
  | _, [] => []
  | k + 1, _ :: s => replaceFrom old new k s
  | 0, c :: s =>
    if old.isPrefixOf (c :: s) then new ++ replaceFrom old new (old.length - 1) s
    else c :: replaceFrom old new 0 s

/-- Go `strings.ReplaceAll(s, old, new)`: all non-overlapping occurrences of `old`,
found left to right, are replaced by `new`; an empty `old` matches before every rune
and at the end. -/
def ReplaceAll (s old new : Str) : Str :=
  if old = [] then new ++ (s.map fun c => c :: new).flatten
  else replaceFrom old new 0 s

/-- Go `strings.Contains(s, substr)`: `substr` occurs in `s` at some position. -/
def Contains : Str → Str → Bool
  | [], substr => substr.isPrefixOf []
  | c :: s, substr => substr.isPrefixOf (c :: s) || Contains s substr

/-! ## Go standard library: `path/filepath` (Unix) -/

/-- Go `filepath.Base`: the last element of the path; trailing slashes are removed
first, the empty path gives `.`, a path of slashes only gives `/`. -/
def Base (path : Str) : Str :=
  if path = [] then ['.']
  else
    let stripped := (path.reverse.dropWhile (fun c => c = '/')).reverse
    let last := (stripped.reverse.takeWhile (fun c => c ≠ '/')).reverse
    if last = [] then ['/'] else last

/-- The loop of Go `filepath.Ext`, run over the reversed path: `acc` is the part of the
path already passed. The scan stops with no extension at a separator and returns the
suffix that starts at the first dot met. -/
def extScan : Str → Str → Str
  | [], _ => []
  | c :: r, acc =>
    if c = '/' then [] else if c = '.' then '.' :: acc else extScan r (c :: acc)

/-- Go `filepath.Ext`: the suffix of the path beginning at the final dot of its final
element, empty when there is no dot there. -/
def Ext (path : Str) : Str := extScan path.reverse []

/-! ## Go standard library: the `regexp` fragment reached by translated patterns -/

/-- The instructions of a compiled pattern in the modelled fragment. -/
inductive Inst where
  /-- Match exactly this rune. -/
  | rune (c : Char)
  /-- The wildcard `.`: any rune but a newline. -/
  | anyNotNL
  /-- The empty-width assertion `^`: at the beginning of the text. -/
  | beginText
  /-- The empty-width assertion `$`: at the end of the text. -/
  | endText
  deriving DecidableEq, Repr

/-- A compiled `*regexp.Regexp` of the fragment: a concatenation of instructions. -/
abbrev Regexp := List Inst

/-- The function `isalnum` of Go `regexp/syntax`: an ASCII letter or digit. -/
def isalnum (c : Char) : Bool :=
  ('0' ≤ c && c ≤ '9') || ('A' ≤ c && c ≤ 'Z') || ('a' ≤ c && c ≤ 'z')

/-- Go `regexp.Compile` on the fragment: a backslash followed by ASCII punctuation is
that character taken literally, `^` and `$` are the text anchors (the parser runs
without the multi-line flag), `.` is the wildcard, any rune that is not a
metacharacter matches itself. The result is `none` when Go rejects the pattern
(a trailing backslash) and also for constructs outside the fragment (repetition,
groups, classes, alternation, escapes of letters and digits). The limits that the Go
parser puts on the size of a pattern are left out here: they are `parserAccepts`, and
`CompileWithLimits` is the compiler with them. -/
def Compile : Str → Option Regexp
  | [] => some []
  | c :: s =>
    if c = '\\' then
      match s with
      | [] => none
      | e :: t =>
        if e.toNat < 128 && !isalnum e then (Compile t).map (Inst.rune e :: ·)
        else none
    else if c = '^' then (Compile s).map (Inst.beginText :: ·)
    else if c = '$' then (Compile s).map (Inst.endText :: ·)
    else if c = '.' then (Compile s).map (Inst.anyNotNL :: ·)
    else if special c then none
    else (Compile s).map (Inst.rune c :: ·)

/-- Does the pattern match starting exactly at the current position: the flag tells
whether that position is the beginning of the text, the last argument is the rest of
the text from there. -/
def matchHere : Regexp → Bool → Str → Bool
  | [], _, _ => true
  | Inst.rune c :: p, _, x :: xs => x = c && matchHere p false xs
  | Inst.rune _ :: _, _, [] => false
  | Inst.anyNotNL :: p, _, x :: xs => x ≠ '\n' && matchHere p false xs
  | Inst.anyNotNL :: _, _, [] => false
  | Inst.beginText :: p, b, xs => b && matchHere p b xs
  | Inst.endText :: p, b, xs => xs.isEmpty && matchHere p b xs

/-- Try every start position of the text in turn. -/
def matchFrom (re : Regexp) : Bool → Str → Bool
  | b, [] => matchHere re b []
  | b, x :: xs => matchHere re b (x :: xs) || matchFrom re false xs

/-- Go `(*Regexp).MatchString`: the text contains a match of the pattern at some
position (an unanchored search). -/
def MatchString (re : Regexp) (s : Str) : Bool := matchFrom re true s

/-! ## Go standard library: the size limits of the regexp parser -/

/-- The constant `maxSize` of Go `regexp/syntax`, `128 << 20 / instSize` with an
`instSize` of 40 bytes. -/
def maxSize : Nat := 3355443

/-- The constant `maxRunes` of Go `regexp/syntax`, `128 << 20 / runeSize` with a
`runeSize` of 4 bytes. -/
def maxRunes : Nat := 33554432

/-- What the size accounting of the parser sees of a `syntax.Regexp` node on the
parse stack: whether it is a literal, the length of its `Rune` slice, for a
concatenation the sum that `calcSize` forms over its parts, and the entry recorded
for the node in the map `p.size`. -/
structure PNode where
  isLiteral : Bool
  runes : Nat
  subSize : Nat
  size : Nat
  deriving DecidableEq, Repr

/-- The method `calcSize` of the parser on a node of the stack: the number of runes
of a literal, the sum over the parts of a concatenation, and at least 1. -/
def PNode.calcSize (n : PNode) : Nat := max 1 (if n.isLiteral then n.runes else n.subSize)

/-- The fields of the Go `parser` that the limits depend on: the stack (top first),
the length of the free list, the counters `numRegexp` and `numRunes`, and whether
sizes are tracked (`p.size != nil`). -/
structure ParseState where
  stack : List PNode
  free : Nat
  numRegexp : Nat
  numRunes : Nat
  tracking : Bool
  deriving DecidableEq, Repr

/-- The method `newRegexp`: a node is taken from the free list, or allocated and
counted in `numRegexp`. -/
def ParseState.newRegexp (p : ParseState) : ParseState :=
  if p.free > 0 then { p with free := p.free - 1 }
  else { p with numRegexp := p.numRegexp + 1 }

/-- The call `maybeConcat(-1, 0)`: when the two topmost nodes are literals, the upper
one is appended to the lower one and goes to the free list. -/
def ParseState.maybeConcat (p : ParseState) : ParseState :=
  match p.stack with
  | re1 :: re2 :: rest =>
    if re1.isLiteral && re2.isLiteral then
      { p with stack := { re2 with runes := re2.runes + re1.runes } :: rest,
               free := p.free + 1 }
    else p
  | _ => p

/-- The method `checkLimits` for the node just pushed, `none` for the panic with
`ErrLarge`: more than `maxRunes` runes counted; or, once `numRegexp` has reached
`maxSize`, a node whose size exceeds `maxSize`. Sizes are not computed before
`numRegexp` reaches `maxSize`; at that moment every node of the stack gets its size
recorded. (The height check of `checkLimits` cannot fail here: the tree of a
translated pattern has height at most 2.) -/
def ParseState.checkLimits (p : ParseState) : Option ParseState :=
  if p.numRunes > maxRunes then none
  else if p.tracking then
    match p.stack with
    | [] => some p
    | re :: rest =>
      if re.calcSize > maxSize then none
      else some { p with stack := { re with size := re.calcSize } :: rest }
  else if p.numRegexp < maxSize then some p
  else if p.stack.any (fun n => decide (n.calcSize > maxSize)) then none
  else some { p with stack := p.stack.map (fun n => { n with size := n.calcSize }),
                     tracking := true }

/-- The method `push`: the runes of the node are counted, the two topmost literals
are merged, the node goes on the stack and the limits are checked. -/
def ParseState.push (p : ParseState) (re : PNode) : Option ParseState :=
  let p := { p with numRunes := p.numRunes + re.runes }
  let p := p.maybeConcat
  ParseState.checkLimits { p with stack := re :: p.stack }

/-- One token of the pattern: `p.literal(c)` for a rune, plain or escaped, and
`p.op(...)` for `^`, `$` and `.`; either allocates a node and pushes it. -/
def ParseState.token (p : ParseState) (isLiteral : Bool) : Option ParseState :=
  p.newRegexp.push ⟨isLiteral, if isLiteral then 1 else 0, 0, 0⟩

/-- The method `concat` at the end of the pattern: after a last merge the whole stack
is collapsed; an empty stack gives a new empty-match node, a single node is pushed
again as it is, several nodes become the parts of a new concatenation node. -/
def ParseState.concat (p : ParseState) : Option ParseState :=
  let p := p.maybeConcat
  match p.stack with
  | [] => p.newRegexp.push ⟨false, 0, 0, 0⟩
  | [x] => ParseState.push { p with stack := [] } x
  | subs =>
    ParseState.push { p with stack := [] }.newRegexp
      ⟨false, 0, (subs.map (fun n => if p.tracking then n.size else n.calcSize)).sum, 0⟩

/-- The method `alternate` at the end of the pattern: the single node left by `concat`
is collapsed to itself and pushed once more. -/
def ParseState.alternate (p : ParseState) : Option ParseState :=
  match p.stack with
  | [x] => ParseState.push { p with stack := [] } x
  | _ => some p

/-- Is the instruction a literal rune. -/
def Inst.isRune : Inst → Bool
  | Inst.rune _ => true
  | _ => false

/-- The size accounting of `syntax.Parse` over the tokens of a pattern of the
fragment, followed by the final `concat` and `alternate`; `none` when the parser
gives up with `expression too large`. -/
def parseLimits (re : Regexp) : Option ParseState :=
  ((re.foldl (fun st i => st.bind (fun p => p.token i.isRune))
    (some ⟨[], 0, 0, 0, false⟩)).bind ParseState.concat).bind ParseState.alternate

/-- Does the parser accept the pattern with these instructions, as far as its size
limits go. -/
def parserAccepts (re : Regexp) : Bool := (parseLimits re).isSome

/-- Go `regexp.Compile` on the fragment with the size limits of the parser: `Compile`
followed by the verdict of the size accounting. -/
def CompileWithLimits (pattern : Str) : Option Regexp :=
  match Compile pattern with
  | none => none
  | some re => if parserAccepts re then some re else none

/-! ## `main.go`: rules, the pattern registry and `NewFileChecker` -/

/-- The struct `Rule` of `main.go`: one entry of the rules file. The field `Typ` is
the Go field `Type` (JSON key `type`). -/
structure Rule where
  Part : Str
  Typ : Str
  Pattern : Str
  Caption : Str
  Description : Str
  deriving DecidableEq, Repr

/-- The struct `Violation` of `main.go`. -/
structure Violation where
  FilePath : Str
  RuleCaption : Str
  Description : Str
  deriving DecidableEq, Repr

/-- The Go map `map[string]*regexp.Regexp`, as a list of entries with distinct keys. -/
abbrev Registry := List (Str × Regexp)

/-- The map read `m[k]`: the entry stored under the key, `none` for the nil pointer
that Go returns when the key is absent. -/
def Registry.get (m : Registry) (k : Str) : Option Regexp := List.lookup k m

/-- The map write `m[k] = re`: an entry under the same key is replaced. -/
def Registry.set (m : Registry) (k : Str) (re : Regexp) : Registry :=
  (k, re) :: m.filter (fun e => e.1 ≠ k)

/-- The struct `FileChecker` of `main.go`. -/
structure FileChecker where
  rules : List Rule
  patterns : Registry
  deriving DecidableEq, Repr

/-- The string constants the code compares against. -/
def strRegex : Str := ['r', 'e', 'g', 'e', 'x']

/-- The part name `filename`. -/
def strFilename : Str := ['f', 'i', 'l', 'e', 'n', 'a', 'm', 'e']

/-- The part name `extension`. -/
def strExtension : Str := ['e', 'x', 't', 'e', 'n', 's', 'i', 'o', 'n']

/-- The part name `path`. -/
def strPath : Str := ['p', 'a', 't', 'h']

/-- The file name `.npmrc`. -/
def strNpmrc : Str := ['.', 'n', 'p', 'm', 'r', 'c']

/-- Lines 53 to 57 of `main.go`: the pattern is quoted, then the quoted forms of
backslash-A and backslash-z are replaced by `^` and `$`, then two backslashes
followed by a dot are replaced by a dot. -/
def translatePattern (pattern : Str) : Str :=
  let pattern := QuoteMeta pattern
  let pattern := ReplaceAll pattern ['\\', '\\', 'A'] ['^']
  let pattern := ReplaceAll pattern ['\\', '\\', 'z'] ['$']
  ReplaceAll pattern ['\\', '\\', '.'] ['.']

/-- What `NewFileChecker` can fail with. -/
inductive InitError where
  /-- The message `error reading rules file`. -/
  | readRules
  /-- The message `error parsing rules`. -/
  | parseRules
  /-- The message `invalid regex pattern in rule i`. -/
  | invalidPattern (i : Nat)
  deriving DecidableEq, Repr

/-- The loop of lines 50 to 65 of `main.go`, from rule index `i` on: every rule of
type `regex` has its translated pattern compiled and stored under the raw pattern. -/
def compileRules : Nat → List Rule → Registry → Except InitError Registry
  | _, [], m => Except.ok m
  | i, rule :: rest, m =>
    if rule.Typ = strRegex then
      match Compile (translatePattern rule.Pattern) with
      | none => Except.error (InitError.invalidPattern i)
      | some re => compileRules (i + 1) rest (m.set rule.Pattern re)
    else compileRules (i + 1) rest m

/-- What reading and decoding the rules file gives: `os.ReadFile` failed,
`json.Unmarshal` failed, or the decoded rule list. -/
inductive RulesFile where
  | unreadable
  | malformed
  | parsed (rules : List Rule)
  deriving DecidableEq, Repr

/-- The function `NewFileChecker` of `main.go`, on the outcome of reading the file
at `rulesPath`. -/
def NewFileChecker (file : RulesFile) : Except InitError FileChecker :=
  match file with
  | RulesFile.unreadable => Except.error InitError.readRules
  | RulesFile.malformed => Except.error InitError.parseRules
  | RulesFile.parsed rules =>
    match compileRules 0 rules [] with
    | Except.error e => Except.error e
    | Except.ok m => Except.ok ⟨rules, m⟩

/-! ## `internal/npmrc.go`: the credential scanner -/

/-- What opening a file and scanning it with `bufio.Scanner` gives: `os.Open` failed,
or the lines delivered by `scanner.Scan` together with whether `scanner.Err` reports
an error once the scan has stopped. -/
inductive ReadOutcome where
  | openError
  | scanned (lines : List Str) (scanErr : Bool)
  deriving DecidableEq, Repr

/-- The errors of `CheckNPMRC`. -/
inductive NpmrcError where
  /-- The message `error opening .npmrc`. -/
  | openNpmrc
  /-- The message `error reading .npmrc`. -/
  | readNpmrc
  deriving DecidableEq, Repr

/-- The marker `_auth=`. -/
def strAuth : Str := ['_', 'a', 'u', 't', 'h', '=']

/-- The marker `_authToken=`. -/
def strAuthToken : Str := ['_', 'a', 'u', 't', 'h', 'T', 'o', 'k', 'e', 'n', '=']

/-- The finding `Found _auth token at line %d`. -/
def msgAuth (lineNum : Nat) : Str :=
  "Found _auth token at line ".toList ++ (Nat.repr lineNum).toList

/-- The finding `Found _authToken at line %d`. -/
def msgAuthToken (lineNum : Nat) : Str :=
  "Found _authToken at line ".toList ++ (Nat.repr lineNum).toList

/-- The loop of lines 22 to 33 of `npmrc.go`: `lineNum` is the number of lines read
so far, `violations` the findings so far. (The Go counter is a 64-bit `int`; a file
cannot have enough lines to overflow it.) -/
def scanLines : List Str → Nat → List Str → List Str
  | [], _, violations => violations
  | line :: rest, lineNum, violations =>
    let lineNum := lineNum + 1
    let violations :=
      if Contains line strAuth then violations ++ [msgAuth lineNum] else violations
    let violations :=
      if Contains line strAuthToken then violations ++ [msgAuthToken lineNum]
      else violations
    scanLines rest lineNum violations

/-- The function `CheckNPMRC` of `internal/npmrc.go`; `fsys` gives the outcome of
opening and scanning the file at a path. -/
def CheckNPMRC (fsys : Str → ReadOutcome) (path : Str) : Except NpmrcError (List Str) :=
  match fsys path with
  | ReadOutcome.openError => Except.error NpmrcError.openNpmrc
  | ReadOutcome.scanned lines scanErr =>
    let violations := scanLines lines 0 []
    if scanErr then Except.error NpmrcError.readNpmrc else Except.ok violations

/-! ## `main.go`: `CheckFile` -/

/-- The switch of lines 88 to 111 of `main.go`: the value of `match` for one rule,
`none` when `MatchString` is called on a missing registry entry. A part that is none
of the three names leaves `match` false. -/
def ruleMatch (patterns : Registry) (rule : Rule) (filename ext path : Str) :
    Option Bool :=
  if rule.Part = strFilename then
    if rule.Typ = strRegex then
      (patterns.get rule.Pattern).map (fun re => MatchString re filename)
    else some (decide (filename = rule.Pattern))
  else if rule.Part = strExtension then
    if rule.Typ = strRegex then
      (patterns.get rule.Pattern).map (fun re => MatchString re ext)
    else some (decide (ext = rule.Pattern))
  else if rule.Part = strPath then
    if rule.Typ = strRegex then
      (patterns.get rule.Pattern).map (fun re => MatchString re path)
    else some (decide (path = rule.Pattern))
  else some false

/-- The loop of lines 87 to 120 of `main.go` over the rules still to visit, with the
violations collected so far. -/
def checkRules (patterns : Registry) (filename ext path : Str) :
    List Rule → List Violation → Option (List Violation)
  | [], violations => some violations
  | rule :: rest, violations =>
    match ruleMatch patterns rule filename ext path with
    | none => none
    | some m =>
      checkRules patterns filename ext path rest
        (if m then violations ++ [⟨path, rule.Caption, rule.Description⟩]
         else violations)

/-- Lines 82 to 85 of `main.go`: the extension without its leading dot. -/
def extOf (path : Str) : Str :=
  let ext := Ext path
  if ext ≠ [] then ext.drop 1 else ext

/-- Lines 79 to 120 of `main.go`: the violations collected from the rules, before the
check of `.npmrc` files. -/
def ruleViolations (fc : FileChecker) (path : Str) : Option (List Violation) :=
  checkRules fc.patterns (Base path) (extOf path) path fc.rules []

/-- The method `CheckFile` of `main.go`: the violations from the rules, followed for a
file named `.npmrc` by one violation per finding of `CheckNPMRC` unless that fails.
The result is `none` when the rule loop dereferences a missing pattern. -/
def CheckFile (fc : FileChecker) (fsys : Str → ReadOutcome) (path : Str) :
    Option (List Violation) :=
  match ruleViolations fc path with
  | none => none
  | some violations =>
    if Base path = strNpmrc then
      match CheckNPMRC fsys path with
      | Except.ok npmrcViolations =>
        some (npmrcViolations.foldl (fun vs v => vs ++ [⟨path, v, []⟩]) violations)
      | Except.error _ => some violations
    else some violations

/-! ## `main.go`: `CheckFiles` -/

/-- The state of a run of `CheckFiles`: the files whose goroutine has not yet
finished, the batches waiting in the buffered channel (oldest first), and the
violations the collector has appended to `allViolations` so far. -/
structure PipeState where
  pending : List Str
  channel : List (List Violation)
  allViolations : List Violation

/-- One step of a run of `CheckFiles` (lines 138 to 167 of `main.go`). Any goroutine
still pending may finish next: it calls `CheckFile` and sends the result when it has
at least one violation (the channel has room for one batch per file, so a send never
waits). The collector may receive the oldest batch of the channel and append it. -/
inductive PipeStep (fc : FileChecker) (fsys : Str → ReadOutcome) :
    PipeState → PipeState → Prop where
  | worker (pre post : List Str) (f : Str) (vs : List Violation)
      (channel : List (List Violation)) (allViolations : List Violation) :
      CheckFile fc fsys f = some vs →
      PipeStep fc fsys ⟨pre ++ f :: post, channel, allViolations⟩
        ⟨pre ++ post, if vs.length > 0 then channel ++ [vs] else channel, allViolations⟩
  | receive (pending : List Str) (batch : List Violation)
      (channel : List (List Violation)) (allViolations : List Violation) :
      PipeStep fc fsys ⟨pending, batch :: channel, allViolations⟩
        ⟨pending, channel, allViolations ++ batch⟩

/-- The method `CheckFiles` of `main.go` can return `result` on `files`: some run leads
from the start (every goroutine pending, nothing sent) to the state in which every
goroutine has finished and the channel, closed after `wg.Wait`, is drained. -/
def CheckFilesReturns (fc : FileChecker) (fsys : Str → ReadOutcome) (files : List Str)
    (result : List Violation) : Prop :=
  Relation.ReflTransGen (PipeStep fc fsys) ⟨files, [], []⟩ ⟨[], [], result⟩

/-! ## `main.go`: the compilation loop over an arbitrary regexp compiler -/

/-- The loop of lines 50 to 65 of `main.go` with the call of `regexp.Compile` taken as
a parameter. -/
def compileRulesWith (compile : Str → Option Regexp) :
    Nat → List Rule → Registry → Except InitError Registry
  | _, [], m => Except.ok m
  | i, rule :: rest, m =>
    if rule.Typ = strRegex then
      match compile (translatePattern rule.Pattern) with
      | none => Except.error (InitError.invalidPattern i)
      | some re => compileRulesWith compile (i + 1) rest (m.set rule.Pattern re)
    else compileRulesWith compile (i + 1) rest m

/-- The function `NewFileChecker` with the call of `regexp.Compile` taken as a
parameter. -/
def NewFileCheckerWith (compile : Str → Option Regexp) (file : RulesFile) :
    Except InitError FileChecker :=
  match file with
  | RulesFile.unreadable => Except.error InitError.readRules
  | RulesFile.malformed => Except.error InitError.parseRules
  | RulesFile.parsed rules =>
    match compileRulesWith compile 0 rules [] with
    | Except.error e => Except.error e
    | Except.ok m => Except.ok ⟨rules, m⟩

/-! ## Specification-side definitions -/

/-- The translation as one pass over the source pattern; the flags say which of the
three sequences backslash-A, backslash-z and backslash-dot are rewritten. -/
def pass (a z d : Bool) : Str → Str
  | [] => []
  | c :: s =>
    let rest := pass a z d s
    if c = '\\' then
      match s with
      | [] => ['\\', '\\']
      | e :: t =>
        if a && e = 'A' then '^' :: pass a z d t
        else if z && e = 'z' then '$' :: pass a z d t
        else if d && e = '.' then '\\' :: '.' :: pass a z d t
        else '\\' :: '\\' :: rest
    else if special c then '\\' :: c :: rest
    else c :: rest

/-- The instructions that the translated pattern compiles to, read off the source
pattern in one pass: backslash-A and backslash-z are the two anchors, every other
character, a backslash or dot included, is matched literally. -/
def patternInsts : Str → Regexp
  | [] => []
  | c :: s =>
    let rest := patternInsts s
    if c = '\\' then
      match s with
      | [] => [Inst.rune '\\']
      | e :: t =>
        if e = 'A' then Inst.beginText :: patternInsts t
        else if e = 'z' then Inst.endText :: patternInsts t
        else if e = '.' then Inst.rune '.' :: patternInsts t
        else Inst.rune '\\' :: rest
    else Inst.rune c :: rest

/-- The matcher a regex-kind rule with this pattern is meant to use: the compiled
translation of the pattern, applied as an unanchored search. -/
def patternAccepts (pattern value : Str) : Bool :=
  match Compile (translatePattern pattern) with
  | some re => MatchString re value
  | none => false

/-- The facet of the path that a rule part selects. -/
def selectFacet (part path : Str) : Str :=
  if part = strFilename then Base path
  else if part = strExtension then extOf path
  else path

/-- The rule matches the path: its part is one of the three names and the selected
facet is accepted by the rule's matcher (regex kind) or equals the pattern (any
other kind). -/
def ruleApplies (rule : Rule) (path : Str) : Bool :=
  (rule.Part = strFilename || rule.Part = strExtension || rule.Part = strPath) &&
    (if rule.Typ = strRegex then patternAccepts rule.Pattern (selectFacet rule.Part path)
     else decide (selectFacet rule.Part path = rule.Pattern))

/-- The violation reported for a rule that matches the path. -/
def violationOf (path : Str) (rule : Rule) : Violation :=
  ⟨path, rule.Caption, rule.Description⟩

/-- The substring after the last dot of a name, empty when the name has no dot. -/
def afterLastDot (name : Str) : Str :=
  if '.' ∈ name then (name.reverse.takeWhile (fun c => c ≠ '.')).reverse else []

/-- The findings of one line, given its number: the `_auth=` finding first, then the
`_authToken=` finding, each present when the line contains the marker. -/
def lineFindings (k : Nat) (line : Str) : List Str :=
  (if strAuth <:+: line then [msgAuth k] else []) ++
    (if strAuthToken <:+: line then [msgAuthToken k] else [])

/-- The regex-kind patterns of a rule list. -/
def regexPatterns (rules : List Rule) : List Str :=
  (rules.filter (fun r => r.Typ = strRegex)).map (fun r => r.Pattern)


/-- The escaped literal form of a character: a metacharacter gets a backslash in
front, any other character stands for itself. -/
def escapeChar (c : Char) : Str := if special c then ['\\', c] else [c]

/-- The translation as a single pass over the source pattern, left to right:
backslash-A gives `^`, backslash-z gives `$`, backslash-dot gives the escaped literal
dot, every other character gives its escaped literal form. -/
def onePass : Str → Str
  | [] => []
  | c :: s =>
    let rest := onePass s
    if c = '\\' then
      match s with
      | [] => escapeChar c
      | e :: t =>
        if e = 'A' then '^' :: onePass t
        else if e = 'z' then '$' :: onePass t
        else if e = '.' then '\\' :: '.' :: onePass t
        else escapeChar c ++ rest
    else escapeChar c ++ rest

/-- The tokens a translated pattern is made of: a non-metacharacter on its own, a
backslash followed by a metacharacter, `^`, or `$`. -/
def IsToken (t : Str) : Prop :=
  (∃ c, special c = false ∧ t = [c]) ∨ (∃ m, special m = true ∧ t = ['\\', m]) ∨
    t = ['^'] ∨ t = ['$']

/-- The keys of the registry. -/
def Registry.keys (m : Registry) : List Str := m.map (fun e => e.1)

/-- The list of violations `CheckFile` returns for a path, empty if it does not
return. -/
def checkFileList (fc : FileChecker) (fsys : Str → ReadOutcome) (path : Str) :
    List Violation :=
  (CheckFile fc fsys path).getD []

/-! ## Example data -/

/-- Two rules that both match a file named `.env`: an exact rule on the file name and
a regex rule on the path. -/
def envRules : List Rule :=
  [⟨strFilename, "match".toList, ".env".toList, "Environment file".toList,
      "May hold secrets".toList⟩,
   ⟨strPath, strRegex, "\\.env\\z".toList, "Dotenv path".toList, []⟩]

/-- A regex rule on the file name with the pattern `id_rsa`. -/
def idRsaRule : Rule :=
  ⟨strFilename, strRegex, "id_rsa".toList, "Private SSH key".toList, []⟩

/-- A regex rule on the file name with the anchored pattern for `.env`. -/
def anchoredEnvRule : Rule :=
  ⟨strFilename, strRegex, "\\A.env\\z".toList, "Environment file".toList, []⟩

/-- The three lines of the `.npmrc` scenario. -/
def npmrcLines : List Str :=
  ["registry=https://x".toList, "//x/:_authToken=abc123".toList, "_auth=deadbeef".toList]

/-- A line that holds both markers. -/
def bothMarkersLine : Str := "//x/:_auth=abc _authToken=xyz".toList

/-- An exact rule on the empty extension. -/
def noExtensionRule : Rule :=
  ⟨strExtension, "match".toList, [], "File without extension".toList, []⟩

/-- A regex rule on the path with the empty pattern. -/
def emptyRegexRule : Rule :=
  ⟨strPath, strRegex, [], "Everything".toList, []⟩

/-- A rule whose part is none of the three names. -/
def unknownPartRule : Rule :=
  ⟨"basename".toList, strRegex, "env".toList, "Unknown part".toList, []⟩

/-- The checker that `NewFileChecker` builds from `envRules`. -/
def envChecker : FileChecker :=
  ⟨envRules, [("\\.env\\z".toList,
    [Inst.rune '.', Inst.rune 'e', Inst.rune 'n', Inst.rune 'v', Inst.endText])]⟩

/-- The two violations that the rules of the `.env` example give for a path whose
last element is `.env`. -/
def envViolations (path : Str) : List Violation :=
  [⟨path, "Environment file".toList, "May hold secrets".toList⟩,
   ⟨path, "Dotenv path".toList, []⟩]

/-- A pattern of one more literal rune than the parser allows. -/
def hugePattern : Str := List.replicate (maxRunes + 1) 'a'

/-- A regex rule on the file name with the pattern `hugePattern`. -/
def hugeRule : Rule :=
  ⟨strFilename, strRegex, hugePattern, "Huge".toList, []⟩

/-! ## Lemmas on the string functions -/

theorem replaceFrom_skip (old new : Str) (k : Nat) (s : Str) :
    replaceFrom old new k s = replaceFrom old new 0 (s.drop k) := by
  induction k generalizing s with
  | zero => simp
  | succ k ih =>
    cases s with
    | nil => simp [replaceFrom]
    | cons c s => simp [replaceFrom, ih s]

theorem replaceFrom_cons (old new : Str) (c : Char) (s : Str) :
    replaceFrom old new 0 (c :: s) =
      if old.isPrefixOf (c :: s) then new ++ replaceFrom old new 0 (s.drop (old.length - 1))
      else c :: replaceFrom old new 0 s := by
  simp only [replaceFrom]
  rw [replaceFrom_skip]

theorem special_iff (c : Char) :
    special c = true ↔ c = '\\' ∨ c = '.' ∨ c = '+' ∨ c = '*' ∨ c = '?' ∨ c = '(' ∨
      c = ')' ∨ c = '|' ∨ c = '[' ∨ c = ']' ∨ c = '{' ∨ c = '}' ∨ c = '^' ∨ c = '$' := by
  simp [special, specialBytes]

theorem twoStep {P : Str → Prop} (nil : P [])
    (cons : ∀ c s, P s → (∀ e t, s = e :: t → P t) → P (c :: s)) (p : Str) : P p := by
  have h : ∀ p : Str, P p ∧ ∀ e t, p = e :: t → P t := by
    intro p
    induction p with
    | nil => exact ⟨nil, by simp⟩
    | cons c s ih =>
      refine ⟨cons c s ih.1 ih.2, ?_⟩
      intro e t h
      cases h
      exact ih.1
  exact (h p).1

theorem pass_nil (a z d : Bool) : pass a z d [] = [] := by simp [pass]

theorem pass_bs_nil (a z d : Bool) : pass a z d ['\\'] = ['\\', '\\'] := by simp [pass]

theorem pass_bs_cons (a z d : Bool) (e : Char) (t : Str) :
    pass a z d ('\\' :: e :: t) =
      if a && e = 'A' then '^' :: pass a z d t
      else if z && e = 'z' then '$' :: pass a z d t
      else if d && e = '.' then '\\' :: '.' :: pass a z d t
      else '\\' :: '\\' :: pass a z d (e :: t) := by
  rw [pass]; simp

theorem pass_cons_of_ne (a z d : Bool) (c : Char) (s : Str) (hc : c ≠ '\\') :
    pass a z d (c :: s) =
      if special c then '\\' :: c :: pass a z d s else c :: pass a z d s := by
  cases s <;> simp [pass, hc]

theorem pass_none (p : Str) : pass false false false p = QuoteMeta p := by
  induction p with
  | nil => simp [pass_nil, QuoteMeta]
  | cons c s ih =>
    by_cases hc : c = '\\'
    · subst hc
      cases s with
      | nil => simp [pass_bs_nil, QuoteMeta, special, specialBytes]
      | cons e t => rw [pass_bs_cons, ih]; simp [QuoteMeta, special, specialBytes]
    · rw [pass_cons_of_ne _ _ _ _ _ hc, ih]; simp [QuoteMeta]

theorem pass_head (a z d : Bool) (x : Char) (hx1 : x ≠ '\\') (hx2 : x ≠ '^')
    (hx3 : x ≠ '$') (s rest : Str) (h : pass a z d s = x :: rest) :
    special x = false ∧ ∃ t, s = x :: t := by
  cases s with
  | nil => simp [pass_nil] at h
  | cons e t =>
    by_cases he : e = '\\'
    · subst he
      cases t with
      | nil =>
        rw [pass_bs_nil] at h
        simp at h
        exact absurd h.1.symm hx1
      | cons f u =>
        rw [pass_bs_cons] at h
        split_ifs at h <;> simp at h
        · exact absurd h.1.symm hx2
        · exact absurd h.1.symm hx3
        · exact absurd h.1.symm hx1
        · exact absurd h.1.symm hx1
    · rw [pass_cons_of_ne _ _ _ _ _ he] at h
      split_ifs at h with hs <;> simp at h
      · exact absurd h.1.symm hx1
      · obtain ⟨h1, -⟩ := h
        subst h1
        exact ⟨by simpa using hs, t, rfl⟩

theorem pass_head2 (a z : Bool) (x : Char) (hx1 : x ≠ '\\') (s rest : Str)
    (h : pass a z false s = '\\' :: x :: rest) :
    special x = true ∧ ∃ t, s = x :: t := by
  cases s with
  | nil => simp [pass_nil] at h
  | cons e t =>
    by_cases he : e = '\\'
    · subst he
      cases t with
      | nil =>
        rw [pass_bs_nil] at h
        simp at h
        exact absurd h.1.symm hx1
      | cons f u =>
        rw [pass_bs_cons] at h
        simp only [Bool.false_and, Bool.false_eq_true, if_false] at h
        split_ifs at h <;> simp at h
        exact absurd h.1.symm hx1
    · rw [pass_cons_of_ne _ _ _ _ _ he] at h
      split_ifs at h with hs <;> simp at h
      · obtain ⟨h1, -⟩ := h
        subst h1
        exact ⟨hs, t, rfl⟩
      · exact absurd h.1 he

theorem rf_copy (x : Char) (new : Str) (c : Char) (l : Str) (hc : c ≠ '\\') :
    replaceFrom ['\\', '\\', x] new 0 (c :: l)
      = c :: replaceFrom ['\\', '\\', x] new 0 l := by
  rw [replaceFrom_cons]
  simp [Ne.symm hc]

theorem rf_copy2 (x : Char) (new : Str) (c : Char) (l : Str) (hc : c ≠ '\\') :
    replaceFrom ['\\', '\\', x] new 0 ('\\' :: c :: l)
      = '\\' :: c :: replaceFrom ['\\', '\\', x] new 0 l := by
  rw [replaceFrom_cons, rf_copy x new c l hc]
  simp [Ne.symm hc]

theorem rf_hit (x : Char) (new : Str) (l : Str) :
    replaceFrom ['\\', '\\', x] new 0 ('\\' :: '\\' :: x :: l)
      = new ++ replaceFrom ['\\', '\\', x] new 0 l := by
  rw [replaceFrom_cons]
  simp

theorem rf_skip2 (x : Char) (new : Str) (l : Str)
    (h0 : ∀ rest, l ≠ x :: rest) (h1 : ∀ rest, l ≠ '\\' :: x :: rest) :
    replaceFrom ['\\', '\\', x] new 0 ('\\' :: '\\' :: l)
      = '\\' :: '\\' :: replaceFrom ['\\', '\\', x] new 0 l := by
  have e0 : (['\\', '\\', x] : Str).isPrefixOf ('\\' :: '\\' :: l) = false := by
    cases l with
    | nil => simp
    | cons y ys =>
      simp [List.isPrefixOf]
      intro hy
      exact h0 ys (by rw [hy])
  have e1 : (['\\', '\\', x] : Str).isPrefixOf ('\\' :: l) = false := by
    cases l with
    | nil => simp
    | cons y ys =>
      cases ys with
      | nil => simp [List.isPrefixOf]
      | cons w ws =>
        simp [List.isPrefixOf]
        intro hy hw
        exact h1 ws (by rw [hy, hw])
  rw [replaceFrom_cons, e0, replaceFrom_cons, e1]
  simp

theorem rf_hit3 (x : Char) (new : Str) (l : Str) (hx : x ≠ '\\') :
    replaceFrom ['\\', '\\', x] new 0 ('\\' :: '\\' :: '\\' :: x :: l)
      = '\\' :: (new ++ replaceFrom ['\\', '\\', x] new 0 l) := by
  rw [replaceFrom_cons]
  have e0 : (['\\', '\\', x] : Str).isPrefixOf ('\\' :: '\\' :: '\\' :: x :: l) = false := by
    simp [List.isPrefixOf, hx]
  rw [e0, rf_hit]
  simp

theorem special_A : special 'A' = false := by decide

theorem special_z : special 'z' = false := by decide

theorem special_dot : special '.' = true := by decide

theorem pass_bs_A (z d : Bool) (t : Str) :
    pass true z d ('\\' :: 'A' :: t) = '^' :: pass true z d t := by
  rw [pass_bs_cons]; simp

theorem pass_bs_z (a d : Bool) (t : Str) :
    pass a true d ('\\' :: 'z' :: t) = '$' :: pass a true d t := by
  rw [pass_bs_cons]
  have h : ¬ 'z' = 'A' := by decide
  simp [h]

theorem pass_bs_dot (a z : Bool) (t : Str) :
    pass a z true ('\\' :: '.' :: t) = '\\' :: '.' :: pass a z true t := by
  rw [pass_bs_cons]
  have h : ¬ '.' = 'A' := by decide
  have h2 : ¬ '.' = 'z' := by decide
  simp [h, h2]

theorem pass_bs_other (a z d : Bool) (e : Char) (t : Str) (hA : a = true → e ≠ 'A')
    (hz : z = true → e ≠ 'z') (hd : d = true → e ≠ '.') :
    pass a z d ('\\' :: e :: t) = '\\' :: '\\' :: pass a z d (e :: t) := by
  rw [pass_bs_cons]
  have h1 : (a && decide (e = 'A')) = false := by
    cases a
    · simp
    · simpa using hA rfl
  have h2 : (z && decide (e = 'z')) = false := by
    cases z
    · simp
    · simpa using hz rfl
  have h3 : (d && decide (e = '.')) = false := by
    cases d
    · simp
    · simpa using hd rfl
  simp [h1, h2, h3]

theorem special_bs : special '\\' = true := by decide

theorem pass_lit (a z d : Bool) (c : Char) (s : Str) (hc : special c = false) :
    pass a z d (c :: s) = c :: pass a z d s := by
  have hne : c ≠ '\\' := by
    intro h
    rw [h, special_bs] at hc
    exact Bool.noConfusion hc
  rw [pass_cons_of_ne _ _ _ _ _ hne]
  simp [hc]

theorem pass_esc (a z d : Bool) (c : Char) (s : Str) (hc : special c = true)
    (hne : c ≠ '\\') : pass a z d (c :: s) = '\\' :: c :: pass a z d s := by
  rw [pass_cons_of_ne _ _ _ _ _ hne]
  simp [hc]

theorem stage_other (x : Char) (new : Str) (f g : Str → Str) (c : Char) (s : Str)
    (hc : c ≠ '\\')
    (hf : f (c :: s) = if special c then '\\' :: c :: f s else c :: f s)
    (hg : g (c :: s) = if special c then '\\' :: c :: g s else c :: g s)
    (ih : replaceFrom ['\\', '\\', x] new 0 (f s) = g s) :
    replaceFrom ['\\', '\\', x] new 0 (f (c :: s)) = g (c :: s) := by
  rw [hf, hg]
  split_ifs
  · rw [rf_copy2 _ _ _ _ hc, ih]
  · rw [rf_copy _ _ _ _ hc, ih]

theorem stage_A (p : Str) :
    replaceFrom ['\\', '\\', 'A'] ['^'] 0 (pass false false false p)
      = pass true false false p := by
  induction p using twoStep with
  | nil => simp [pass_nil, replaceFrom]
  | cons c s ihs iht =>
    by_cases hc : c = '\\'
    · subst hc
      cases s with
      | nil => rw [pass_bs_nil, pass_bs_nil]; decide
      | cons e t =>
        have iht2 := iht e t rfl
        by_cases he : e = 'A'
        · subst he
          rw [pass_bs_A, pass_bs_other _ _ _ _ _ (by simp) (by simp) (by simp),
            pass_lit _ _ _ _ _ special_A, rf_hit, iht2]
          simp
        · rw [pass_bs_other _ _ _ _ _ (by simp) (by simp) (by simp),
            pass_bs_other _ _ _ _ _ (fun _ => he) (by simp) (by simp), rf_skip2, ihs]
          · intro rest h
            obtain ⟨-, t2, h2⟩ :=
              pass_head _ _ _ 'A' (by decide) (by decide) (by decide) _ _ h
            exact he (List.cons.inj h2).1
          · intro rest h
            have := (pass_head2 _ _ 'A' (by decide) _ _ h).1
            simp [special_A] at this
    · exact stage_other _ _ _ _ c s hc (pass_cons_of_ne _ _ _ _ _ hc)
        (pass_cons_of_ne _ _ _ _ _ hc) ihs

theorem stage_z (p : Str) :
    replaceFrom ['\\', '\\', 'z'] ['$'] 0 (pass true false false p)
      = pass true true false p := by
  induction p using twoStep with
  | nil => simp [pass_nil, replaceFrom]
  | cons c s ihs iht =>
    by_cases hc : c = '\\'
    · subst hc
      cases s with
      | nil => rw [pass_bs_nil, pass_bs_nil]; decide
      | cons e t =>
        have iht2 := iht e t rfl
        by_cases hA : e = 'A'
        · subst hA
          rw [pass_bs_A, pass_bs_A, rf_copy _ _ _ _ (by decide), iht2]
        · by_cases he : e = 'z'
          · subst he
            rw [pass_bs_z, pass_bs_other _ _ _ _ _ (fun _ => hA) (by simp) (by simp),
              pass_lit _ _ _ _ _ special_z, rf_hit, iht2]
            simp
          · rw [pass_bs_other _ _ _ _ _ (fun _ => hA) (by simp) (by simp),
              pass_bs_other _ _ _ _ _ (fun _ => hA) (fun _ => he) (by simp), rf_skip2, ihs]
            · intro rest h
              obtain ⟨-, t2, h2⟩ :=
                pass_head _ _ _ 'z' (by decide) (by decide) (by decide) _ _ h
              exact he (List.cons.inj h2).1
            · intro rest h
              have := (pass_head2 _ _ 'z' (by decide) _ _ h).1
              simp [special_z] at this
    · exact stage_other _ _ _ _ c s hc (pass_cons_of_ne _ _ _ _ _ hc)
        (pass_cons_of_ne _ _ _ _ _ hc) ihs

theorem stage_dot (p : Str) :
    replaceFrom ['\\', '\\', '.'] ['.'] 0 (pass true true false p)
      = pass true true true p := by
  induction p using twoStep with
  | nil => simp [pass_nil, replaceFrom]
  | cons c s ihs iht =>
    by_cases hc : c = '\\'
    · subst hc
      cases s with
      | nil => rw [pass_bs_nil, pass_bs_nil]; decide
      | cons e t =>
        have iht2 := iht e t rfl
        by_cases hA : e = 'A'
        · subst hA
          rw [pass_bs_A, pass_bs_A, rf_copy _ _ _ _ (by decide), iht2]
        · by_cases hz : e = 'z'
          · subst hz
            rw [pass_bs_z, pass_bs_z, rf_copy _ _ _ _ (by decide), iht2]
          · by_cases he : e = '.'
            · subst he
              rw [pass_bs_dot, pass_bs_other _ _ _ _ _ (fun _ => hA) (fun _ => hz) (by simp),
                pass_esc _ _ _ _ _ special_dot (by decide), rf_hit3 _ _ _ (by decide), iht2]
              simp
            · rw [pass_bs_other _ _ _ _ _ (fun _ => hA) (fun _ => hz) (by simp),
                pass_bs_other _ _ _ _ _ (fun _ => hA) (fun _ => hz) (fun _ => he),
                rf_skip2, ihs]
              · intro rest h
                have := (pass_head _ _ _ '.' (by decide) (by decide) (by decide) _ _ h).1
                simp [special_dot] at this
              · intro rest h
                obtain ⟨-, t2, h2⟩ := pass_head2 _ _ '.' (by decide) _ _ h
                exact he (List.cons.inj h2).1
    · exact stage_other _ _ _ _ c s hc (pass_cons_of_ne _ _ _ _ _ hc)
        (pass_cons_of_ne _ _ _ _ _ hc) ihs

/-- The three replacements after quoting amount to the single pass. -/
theorem translatePattern_eq_pass (p : Str) :
    translatePattern p = pass true true true p := by
  have h1 : ∀ (x : Char), ¬ (['\\', '\\', x] : Str) = [] := by intro x; simp
  simp only [translatePattern, ReplaceAll, h1, if_false]
  rw [← pass_none, stage_A, stage_z, stage_dot]


/-! ## Compiling the translated pattern -/

theorem special_escapable (x : Char) (h : special x = true) :
    (decide (x.toNat < 128) && !isalnum x) = true := by
  rw [special_iff] at h
  rcases h with h | h | h | h | h | h | h | h | h | h | h | h | h | h <;> subst h <;> decide

theorem Compile_esc (x : Char) (l : Str) (h : special x = true) :
    Compile ('\\' :: x :: l) = (Compile l).map (Inst.rune x :: ·) := by
  have := special_escapable x h
  simp [Compile, this]

theorem Compile_caret (l : Str) :
    Compile ('^' :: l) = (Compile l).map (Inst.beginText :: ·) := by
  have h : ¬ '^' = '\\' := by decide
  cases l <;> simp [Compile, h]

theorem Compile_dollar (l : Str) :
    Compile ('$' :: l) = (Compile l).map (Inst.endText :: ·) := by
  have h : ¬ '$' = '\\' := by decide
  have h2 : ¬ '$' = '^' := by decide
  cases l <;> simp [Compile, h, h2]

theorem Compile_lit (c : Char) (l : Str) (h : special c = false) :
    Compile (c :: l) = (Compile l).map (Inst.rune c :: ·) := by
  have h1 : c ≠ '\\' := by rintro rfl; simp [special_bs] at h
  have h2 : c ≠ '^' := by rintro rfl; revert h; decide
  have h3 : c ≠ '$' := by rintro rfl; revert h; decide
  have h4 : c ≠ '.' := by rintro rfl; revert h; decide
  cases l <;> simp [Compile, h1, h2, h3, h4, h]

theorem patternInsts_nil : patternInsts [] = [] := by simp [patternInsts]

theorem patternInsts_bs_nil : patternInsts ['\\'] = [Inst.rune '\\'] := by
  simp [patternInsts]

theorem patternInsts_bs_cons (e : Char) (t : Str) :
    patternInsts ('\\' :: e :: t) =
      if e = 'A' then Inst.beginText :: patternInsts t
      else if e = 'z' then Inst.endText :: patternInsts t
      else if e = '.' then Inst.rune '.' :: patternInsts t
      else Inst.rune '\\' :: patternInsts (e :: t) := by
  rw [patternInsts]; simp

theorem patternInsts_cons_of_ne (c : Char) (s : Str) (hc : c ≠ '\\') :
    patternInsts (c :: s) = Inst.rune c :: patternInsts s := by
  cases s <;> simp [patternInsts, hc]

/-- The translated pattern always compiles, to the instructions of the single pass. -/
theorem Compile_pass (p : Str) :
    Compile (pass true true true p) = some (patternInsts p) := by
  induction p using twoStep with
  | nil => simp [pass_nil, patternInsts_nil, Compile]
  | cons c s ihs iht =>
    by_cases hc : c = '\\'
    · subst hc
      cases s with
      | nil => rw [pass_bs_nil, patternInsts_bs_nil]; decide
      | cons e t =>
        have iht2 := iht e t rfl
        rw [patternInsts_bs_cons]
        by_cases hA : e = 'A'
        · subst hA
          rw [pass_bs_A, Compile_caret, iht2]; simp
        · by_cases hz : e = 'z'
          · subst hz
            rw [pass_bs_z, Compile_dollar, iht2]; simp [hA]
          · by_cases he : e = '.'
            · subst he
              rw [pass_bs_dot, Compile_esc _ _ special_dot, iht2]; simp [hA, hz]
            · rw [pass_bs_other _ _ _ _ _ (fun _ => hA) (fun _ => hz) (fun _ => he),
                Compile_esc _ _ special_bs, ihs]
              simp [hA, hz, he]
    · rw [pass_cons_of_ne _ _ _ _ _ hc, patternInsts_cons_of_ne _ _ hc]
      by_cases hs : special c = true
      · rw [if_pos hs, Compile_esc _ _ hs, ihs]; simp
      · have hs2 : special c = false := by simpa using hs
        rw [if_neg hs, Compile_lit _ _ hs2, ihs]; simp

theorem Compile_translatePattern (p : Str) :
    Compile (translatePattern p) = some (patternInsts p) := by
  rw [translatePattern_eq_pass, Compile_pass]

theorem patternAccepts_eq (p v : Str) :
    patternAccepts p v = MatchString (patternInsts p) v := by
  simp [patternAccepts, Compile_translatePattern]

/-! ## Matching a literal -/

theorem Contains_iff (s sub : Str) : Contains s sub = true ↔ sub <:+: s := by
  induction s with
  | nil =>
    simp [Contains]
  | cons c s ih =>
    simp only [Contains, Bool.or_eq_true, ih, List.isPrefixOf_iff_prefix]
    rw [List.infix_cons_iff]

theorem matchHere_lit (p : Str) (b : Bool) (v : Str) :
    matchHere (p.map Inst.rune) b v = p.isPrefixOf v := by
  induction p generalizing b v with
  | nil => simp [matchHere]
  | cons c p ih =>
    cases v with
    | nil => simp [matchHere, List.isPrefixOf]
    | cons x xs =>
      simp only [List.map_cons, matchHere, ih, List.isPrefixOf]
      by_cases h : x = c
      · subst h; simp
      · have h2 : ¬ c = x := fun e => h e.symm
        simp [h, h2]

theorem matchFrom_lit (p : Str) (b : Bool) (v : Str) :
    matchFrom (p.map Inst.rune) b v = Contains v p := by
  induction v generalizing b with
  | nil => simp [matchFrom, Contains, matchHere_lit]
  | cons x xs ih => simp [matchFrom, Contains, matchHere_lit, ih]

/-- A pattern of literal runes matches exactly the texts that contain it. -/
theorem MatchString_lit (p v : Str) :
    MatchString (p.map Inst.rune) v = true ↔ p <:+: v := by
  rw [MatchString, matchFrom_lit, Contains_iff]

theorem matchHere_lit_end (s : Str) (b : Bool) (v : Str) :
    matchHere (s.map Inst.rune ++ [Inst.endText]) b v = decide (v = s) := by
  induction s generalizing b v with
  | nil => cases v <;> simp [matchHere]
  | cons c s ih =>
    cases v with
    | nil => simp [matchHere]
    | cons x xs =>
      simp only [List.map_cons, List.cons_append, matchHere, ih]
      by_cases h : x = c
      · subst h; simp [ih]
      · simp [h]

theorem matchFrom_begin_false (re : Regexp) (v : Str) :
    matchFrom (Inst.beginText :: re) false v = false := by
  induction v with
  | nil => simp [matchFrom, matchHere]
  | cons x xs ih => simp [matchFrom, matchHere, ih]

/-- A literal between the two anchors matches exactly the text equal to it. -/
theorem MatchString_anchored (s v : Str) :
    MatchString (Inst.beginText :: (s.map Inst.rune ++ [Inst.endText])) v = true ↔ v = s := by
  cases v with
  | nil => simp [MatchString, matchFrom, matchHere, matchHere_lit_end]
  | cons x xs =>
    simp [MatchString, matchFrom, matchHere, matchHere_lit_end, matchFrom_begin_false]

/-! ## The shape of the compiled pattern -/

theorem patternInsts_noBackslash (s : Str) (h : '\\' ∉ s) :
    patternInsts s = s.map Inst.rune := by
  induction s with
  | nil => simp [patternInsts_nil]
  | cons c s ih =>
    simp only [List.mem_cons, not_or] at h
    rw [patternInsts_cons_of_ne _ _ (fun e => h.1 e.symm), ih h.2]
    simp

/-- A pattern with none of the three special sequences compiles to its own runes. -/
theorem patternInsts_plain (p : Str) (hA : ¬ ['\\', 'A'] <:+: p) (hz : ¬ ['\\', 'z'] <:+: p)
    (hd : ¬ ['\\', '.'] <:+: p) : patternInsts p = p.map Inst.rune := by
  induction p using twoStep with
  | nil => simp [patternInsts_nil]
  | cons c s ihs _ =>
    have hs := ihs (fun h => hA (List.infix_cons h)) (fun h => hz (List.infix_cons h))
      (fun h => hd (List.infix_cons h))
    by_cases hc : c = '\\'
    · subst hc
      cases s with
      | nil => simp [patternInsts_bs_nil]
      | cons e t =>
        have pre : ∀ x : Char, e = x → ['\\', x] <:+: '\\' :: e :: t := by
          intro x hx
          subst hx
          exact (List.prefix_iff_eq_append.mpr (by simp)).isInfix
        have h1 : ¬ e = 'A' := fun h => hA (pre _ h)
        have h2 : ¬ e = 'z' := fun h => hz (pre _ h)
        have h3 : ¬ e = '.' := fun h => hd (pre _ h)
        rw [patternInsts_bs_cons, hs]
        simp [h1, h2, h3]
    · rw [patternInsts_cons_of_ne _ _ hc, hs]
      simp

theorem patternInsts_end (s : Str) (h : '\\' ∉ s) :
    patternInsts (s ++ ['\\', 'z']) = s.map Inst.rune ++ [Inst.endText] := by
  induction s with
  | nil =>
    have hz : ¬ 'z' = 'A' := by decide
    simp [patternInsts_bs_cons, patternInsts_nil, hz]
  | cons c s ih =>
    simp only [List.mem_cons, not_or] at h
    rw [List.cons_append, patternInsts_cons_of_ne _ _ (fun e => h.1 e.symm), ih h.2]
    simp

theorem patternInsts_anchored (s : Str) (h : '\\' ∉ s) :
    patternInsts ('\\' :: 'A' :: (s ++ ['\\', 'z']))
      = Inst.beginText :: (s.map Inst.rune ++ [Inst.endText]) := by
  rw [patternInsts_bs_cons, patternInsts_end s h]
  simp

theorem pass_end (s : Str) (h : '\\' ∉ s) :
    pass true true true (s ++ ['\\', 'z']) = QuoteMeta s ++ ['$'] := by
  induction s with
  | nil => simp [pass_bs_z, pass_nil, QuoteMeta]
  | cons c s ih =>
    simp only [List.mem_cons, not_or] at h
    rw [List.cons_append, pass_cons_of_ne _ _ _ _ _ (fun e => h.1 e.symm), ih h.2]
    by_cases hs : special c = true <;> simp [QuoteMeta, hs]

theorem translatePattern_anchored (s : Str) (h : '\\' ∉ s) :
    translatePattern ('\\' :: 'A' :: (s ++ ['\\', 'z'])) = '^' :: (QuoteMeta s ++ ['$']) := by
  rw [translatePattern_eq_pass, pass_bs_A, pass_end s h]

/-! ## The registry built by `NewFileChecker` -/

theorem lookup_filter_ne (m : Registry) (k k2 : Str) (h : k2 ≠ k) :
    List.lookup k2 (m.filter (fun e => !decide (e.1 = k))) = List.lookup k2 m := by
  induction m with
  | nil => simp
  | cons e m ih =>
    obtain ⟨a, b⟩ := e
    by_cases ha : a = k
    · subst ha
      have : (k2 == a) = false := by simpa using h
      simp [List.lookup, this, ih]
    · by_cases hk : k2 = a
      · subst hk
        simp [List.filter, ha, List.lookup]
      · have : (k2 == a) = false := by simpa using hk
        simp [List.filter, ha, List.lookup, this, ih]

theorem Registry.get_set (m : Registry) (k k2 : Str) (re : Regexp) :
    (m.set k re).get k2 = if k2 = k then some re else m.get k2 := by
  by_cases h : k2 = k
  · subst h
    simp [Registry.get, Registry.set, List.lookup]
  · have : (k2 == k) = false := by simpa using h
    simp [Registry.get, Registry.set, List.lookup, this, h, lookup_filter_ne m k k2 h]

theorem regexPatterns_cons (rule : Rule) (rest : List Rule) :
    regexPatterns (rule :: rest) =
      if rule.Typ = strRegex then rule.Pattern :: regexPatterns rest
      else regexPatterns rest := by
  by_cases h : rule.Typ = strRegex <;> simp [regexPatterns, List.filter, h]

/-- The compilation loop never fails; afterwards every regex-kind pattern of the
rules is bound to the compiled translation of itself and no other key has changed. -/
theorem compileRules_ok (rules : List Rule) (i : Nat) (m : Registry) :
    ∃ m2, compileRules i rules m = Except.ok m2 ∧
      ∀ k, m2.get k =
        if k ∈ regexPatterns rules then some (patternInsts k) else m.get k := by
  induction rules generalizing i m with
  | nil => exact ⟨m, rfl, by simp [regexPatterns]⟩
  | cons rule rest ih =>
    by_cases h : rule.Typ = strRegex
    · obtain ⟨m2, h1, h2⟩ := ih (i + 1) (m.set rule.Pattern (patternInsts rule.Pattern))
      refine ⟨m2, ?_, ?_⟩
      · simp only [compileRules, h, if_true, Compile_translatePattern]
        exact h1
      · intro k
        rw [h2 k, regexPatterns_cons, if_pos h, Registry.get_set]
        by_cases hk : k = rule.Pattern
        · subst hk; simp
        · simp [hk]
    · obtain ⟨m2, h1, h2⟩ := ih (i + 1) m
      refine ⟨m2, ?_, ?_⟩
      · simp only [compileRules, h, if_false]
        exact h1
      · intro k
        rw [h2 k, regexPatterns_cons, if_neg h]

/-- Once the rules are decoded `NewFileChecker` returns a checker: it holds the rules
as given and a registry that binds exactly the regex-kind patterns. -/
theorem NewFileChecker_ok (rules : List Rule) :
    ∃ fc, NewFileChecker (RulesFile.parsed rules) = Except.ok fc ∧ fc.rules = rules ∧
      ∀ k, fc.patterns.get k =
        if k ∈ regexPatterns rules then some (patternInsts k) else none := by
  obtain ⟨m2, h1, h2⟩ := compileRules_ok rules 0 []
  refine ⟨⟨rules, m2⟩, ?_, rfl, ?_⟩
  · simp [NewFileChecker, h1]
  · intro k
    rw [h2 k]
    simp [Registry.get]

theorem mem_regexPatterns (rules : List Rule) (r : Rule) (hr : r ∈ rules)
    (ht : r.Typ = strRegex) : r.Pattern ∈ regexPatterns rules := by
  simp only [regexPatterns, List.mem_map, List.mem_filter]
  exact ⟨r, ⟨hr, by simpa using ht⟩, rfl⟩

/-! ## The rule loop -/

theorem ruleMatch_eq (patterns : Registry) (rule : Rule) (path : Str)
    (h : rule.Typ = strRegex →
      patterns.get rule.Pattern = some (patternInsts rule.Pattern)) :
    ruleMatch patterns rule (Base path) (extOf path) path = some (ruleApplies rule path) := by
  have hfe : strFilename ≠ strExtension := by decide
  have hfp : strFilename ≠ strPath := by decide
  have hep : strExtension ≠ strPath := by decide
  by_cases ht : rule.Typ = strRegex
  · simp only [ruleMatch, ruleApplies, selectFacet, ht, if_true, h ht, patternAccepts_eq]
    by_cases h1 : rule.Part = strFilename
    · simp [h1]
    · by_cases h2 : rule.Part = strExtension
      · simp [h2, hfe.symm]
      · by_cases h3 : rule.Part = strPath
        · simp [h3, hfp.symm, hep.symm]
        · simp [h1, h2, h3]
  · simp only [ruleMatch, ruleApplies, selectFacet, ht, if_false]
    by_cases h1 : rule.Part = strFilename
    · simp [h1]
    · by_cases h2 : rule.Part = strExtension
      · simp [h2, hfe.symm]
      · by_cases h3 : rule.Part = strPath
        · simp [h3, hfp.symm, hep.symm]
        · simp [h1, h2, h3]

theorem checkRules_eq (patterns : Registry) (path : Str) (rules : List Rule)
    (acc : List Violation)
    (h : ∀ r ∈ rules, r.Typ = strRegex →
      patterns.get r.Pattern = some (patternInsts r.Pattern)) :
    checkRules patterns (Base path) (extOf path) path rules acc =
      some (acc ++ (rules.filter (fun r => ruleApplies r path)).map (violationOf path)) := by
  induction rules generalizing acc with
  | nil => simp [checkRules]
  | cons rule rest ih =>
    have hr := ruleMatch_eq patterns rule path (h rule (List.mem_cons_self _ _))
    have ih2 := fun acc => ih acc (fun r hr => h r (List.mem_cons_of_mem _ hr))
    simp only [checkRules, hr]
    rw [ih2]
    by_cases hm : ruleApplies rule path = true
    · simp [hm, List.filter, violationOf]
    · simp [hm, List.filter]

/-- For a checker built by `NewFileChecker` the rule loop returns, with one violation
per matching rule, in rule order. -/
theorem ruleViolations_ok (rules : List Rule) (path : Str) :
    ∃ fc, NewFileChecker (RulesFile.parsed rules) = Except.ok fc ∧
      ruleViolations fc path =
        some ((rules.filter (fun r => ruleApplies r path)).map (violationOf path)) := by
  obtain ⟨fc, h1, h2, h3⟩ := NewFileChecker_ok rules
  refine ⟨fc, h1, ?_⟩
  rw [ruleViolations, h2, checkRules_eq]
  · simp
  · intro r hr ht
    rw [h3, if_pos (mem_regexPatterns rules r hr ht)]

/-! ## File name and extension -/

theorem extScan_eq (r acc : Str) :
    extScan r acc =
      if '.' ∈ r.takeWhile (fun c => c ≠ '/') then
        '.' :: (((r.takeWhile (fun c => c ≠ '/')).takeWhile (fun c => c ≠ '.')).reverse ++ acc)
      else [] := by
  induction r generalizing acc with
  | nil => simp [extScan]
  | cons c r ih =>
    by_cases h1 : c = '/'
    · subst h1
      simp [extScan]
    · by_cases h2 : c = '.'
      · subst h2
        simp [extScan]
      · have h3 : ¬ '.' = c := fun e => h2 e.symm
        simp [extScan, h1, h2, h3, ih]

theorem extOf_eq (path : Str) :
    extOf path =
      if '.' ∈ path.reverse.takeWhile (fun c => c ≠ '/') then
        ((path.reverse.takeWhile (fun c => c ≠ '/')).takeWhile (fun c => c ≠ '.')).reverse
      else [] := by
  by_cases h : '.' ∈ path.reverse.takeWhile (fun c => c ≠ '/')
  · rw [extOf, Ext, extScan_eq, if_pos h, if_pos h]
    simp
  · rw [extOf, Ext, extScan_eq, if_neg h, if_neg h]
    simp

theorem Base_eq_of_last_ne (path : Str) (c : Char) (r : Str) (hr : path.reverse = c :: r)
    (hc : c ≠ '/') :
    Base path = (path.reverse.takeWhile (fun c => c ≠ '/')).reverse := by
  have hne : path ≠ [] := by
    intro h
    rw [h] at hr
    simp at hr
  simp [Base, hne, hr, hc]

theorem afterLastDot_Base (path : Str) (h : path.getLast? ≠ some '/') :
    extOf path = afterLastDot (Base path) := by
  cases hr : path.reverse with
  | nil =>
    have : path = [] := by simpa using hr
    subst this
    decide
  | cons c r =>
    have hc : c ≠ '/' := by
      intro hc
      apply h
      rw [List.getLast?_eq_head?_reverse, hr, hc]
      rfl
    rw [Base_eq_of_last_ne path c r hr hc, extOf_eq, afterLastDot]
    simp

theorem extOf_of_no_dot (path : Str) (h : '.' ∉ Base path) : extOf path = [] := by
  cases hr : path.reverse with
  | nil =>
    have : path = [] := by simpa using hr
    subst this
    decide
  | cons c r =>
    by_cases hc : c = '/'
    · rw [extOf_eq, hr, hc]
      simp
    · rw [Base_eq_of_last_ne path c r hr hc] at h
      rw [extOf_eq, if_neg]
      simpa using h

/-! ## The credential scanner and the end of `CheckFile` -/

theorem scan_step (line marker : Str) (acc : List Str) (x : Str) :
    (if Contains line marker = true then acc ++ [x] else acc) =
      acc ++ (if marker <:+: line then [x] else []) := by
  by_cases h : marker <:+: line
  · simp [(Contains_iff line marker).mpr h, h]
  · have hc : Contains line marker = false := by
      rw [Bool.eq_false_iff]
      exact fun hc => h ((Contains_iff line marker).mp hc)
    simp [hc, h]

theorem scanLines_eq (lines : List Str) (n : Nat) (acc : List Str) :
    scanLines lines n acc =
      acc ++ (lines.enumFrom (n + 1)).flatMap (fun kl => lineFindings kl.1 kl.2) := by
  induction lines generalizing n acc with
  | nil => simp [scanLines]
  | cons line rest ih =>
    simp only [scanLines, scan_step, ih, List.enumFrom_cons, List.flatMap_cons, lineFindings]
    simp [List.append_assoc]

theorem foldl_snoc_map {α β : Type} (f : α → β) (xs : List α) (init : List β) :
    xs.foldl (fun vs v => vs ++ [f v]) init = init ++ xs.map f := by
  induction xs generalizing init with
  | nil => simp
  | cons x xs ih => simp [ih]

theorem findings_length (lines : List Str) (n : Nat) :
    ((lines.enumFrom n).flatMap (fun kl => lineFindings kl.1 kl.2)).length =
      (lines.filter (fun l => decide (strAuth <:+: l))).length +
        (lines.filter (fun l => decide (strAuthToken <:+: l))).length := by
  induction lines generalizing n with
  | nil => simp
  | cons line rest ih =>
    have e := ih (n + 1)
    simp only [List.enumFrom_cons, List.flatMap_cons, List.length_append, List.filter_cons]
    rw [e]
    by_cases h1 : strAuth <:+: line <;> by_cases h2 : strAuthToken <:+: line <;>
      simp only [lineFindings, h1, h2, decide_True, decide_False, if_true, if_false,
        Bool.false_eq_true, List.length_cons, List.length_nil, List.length_append] <;>
      omega

theorem offending_le (lines : List Str) :
    (lines.filter (fun l => decide (strAuth <:+: l ∨ strAuthToken <:+: l))).length ≤
      (lines.filter (fun l => decide (strAuth <:+: l))).length +
        (lines.filter (fun l => decide (strAuthToken <:+: l))).length ∧
    (lines.filter (fun l => decide (strAuth <:+: l))).length +
        (lines.filter (fun l => decide (strAuthToken <:+: l))).length ≤
      2 * (lines.filter (fun l => decide (strAuth <:+: l ∨ strAuthToken <:+: l))).length := by
  induction lines with
  | nil => simp
  | cons line rest ih =>
    simp only [List.filter_cons]
    by_cases h1 : strAuth <:+: line <;> by_cases h2 : strAuthToken <:+: line <;>
      simp only [h1, h2, decide_True, decide_False, if_true, if_false, true_or, or_true,
        or_false, Bool.false_eq_true, List.length_cons] <;>
      omega

/-! ## Runs of `CheckFiles` -/

theorem checkFileList_of_some (fc : FileChecker) (fsys : Str → ReadOutcome) (f : Str)
    (vs : List Violation) (h : CheckFile fc fsys f = some vs) :
    checkFileList fc fsys f = vs := by
  simp [checkFileList, h]

/-- What every reachable state of a run satisfies: the finished goroutines, in the
order they finished, together with the pending ones are the files, and what was
collected followed by what waits in the channel is the concatenation of the results
of the finished ones; no empty batch waits in the channel. -/
theorem pipe_invariant (fc : FileChecker) (fsys : Str → ReadOutcome) (files : List Str)
    (s : PipeState)
    (h : Relation.ReflTransGen (PipeStep fc fsys) ⟨files, [], []⟩ s) :
    ∃ done : List Str, (done ++ s.pending).Perm files ∧
      s.allViolations ++ s.channel.flatten = done.flatMap (checkFileList fc fsys) ∧
      ∀ b ∈ s.channel, b ≠ [] := by
  induction h with
  | refl => exact ⟨[], by simp, by simp, by simp⟩
  | tail _ step ih =>
    obtain ⟨done, hperm, hcat, hne⟩ := ih
    cases step with
    | worker pre post f vs channel allViolations hcf =>
      refine ⟨done ++ [f], ?_, ?_, ?_⟩
      · refine List.Perm.trans ?_ hperm
        simp only [List.append_assoc, List.singleton_append]
        exact List.Perm.append_left done List.perm_middle.symm
      · simp only at hcat
        rw [List.flatMap_append, ← hcat]
        by_cases hl : vs.length > 0
        · simp [hl, checkFileList_of_some fc fsys f vs hcf]
        · have hv : vs = [] := by
            cases vs with
            | nil => rfl
            | cons a as => simp at hl
          simp [hv, checkFileList_of_some fc fsys f vs hcf]
      · intro b hb
        by_cases hl : vs.length > 0
        · simp only [hl, if_true, List.mem_append, List.mem_singleton] at hb
          rcases hb with hb | hb
          · exact hne b hb
          · subst hb
            intro hv
            simp [hv] at hl
        · simp only [hl, if_false] at hb
          exact hne b hb
    | receive pending batch channel allViolations =>
      refine ⟨done, hperm, ?_, ?_⟩
      · simp only at hcat
        rw [← hcat]
        simp
      · intro b hb
        exact hne b (List.mem_cons_of_mem _ hb)

/-- Every result of `CheckFiles` is the concatenation of the `CheckFile` results of the
entries of the file list, taken in some order of the entries. -/
theorem CheckFilesReturns_blocks (fc : FileChecker) (fsys : Str → ReadOutcome)
    (files : List Str) (result : List Violation)
    (h : CheckFilesReturns fc fsys files result) :
    ∃ order : List Str, order.Perm files ∧
      result = order.flatMap (checkFileList fc fsys) := by
  obtain ⟨done, hperm, hcat, -⟩ := pipe_invariant fc fsys files _ h
  refine ⟨done, by simpa using hperm, ?_⟩
  simpa using hcat

theorem run_workers (fc : FileChecker) (fsys : Str → ReadOutcome) (files : List Str)
    (channel : List (List Violation)) (allViolations : List Violation)
    (h : ∀ p ∈ files, ∃ vs, CheckFile fc fsys p = some vs) :
    ∃ channel2, Relation.ReflTransGen (PipeStep fc fsys) ⟨files, channel, allViolations⟩
      ⟨[], channel2, allViolations⟩ := by
  induction files generalizing channel with
  | nil => exact ⟨channel, Relation.ReflTransGen.refl⟩
  | cons f fs ih =>
    obtain ⟨vs, hvs⟩ := h f (List.mem_cons_self _ _)
    obtain ⟨channel2, hrun⟩ :=
      ih (if vs.length > 0 then channel ++ [vs] else channel)
        (fun p hp => h p (List.mem_cons_of_mem _ hp))
    exact ⟨channel2, Relation.ReflTransGen.head
      (PipeStep.worker [] fs f vs channel allViolations hvs) hrun⟩

theorem run_drain (fc : FileChecker) (fsys : Str → ReadOutcome)
    (channel : List (List Violation)) (allViolations : List Violation) :
    Relation.ReflTransGen (PipeStep fc fsys) ⟨[], channel, allViolations⟩
      ⟨[], [], allViolations ++ channel.flatten⟩ := by
  induction channel generalizing allViolations with
  | nil => simp only [List.flatten_nil, List.append_nil]; exact Relation.ReflTransGen.refl
  | cons b bs ih =>
    have h := ih (allViolations ++ b)
    simp only [List.flatten_cons, ← List.append_assoc]
    exact Relation.ReflTransGen.head (PipeStep.receive [] b bs allViolations) h

/-- When `CheckFile` returns for every file, `CheckFiles` has a run to the end. -/
theorem CheckFilesReturns_exists (fc : FileChecker) (fsys : Str → ReadOutcome)
    (files : List Str) (h : ∀ p ∈ files, ∃ vs, CheckFile fc fsys p = some vs) :
    ∃ result, CheckFilesReturns fc fsys files result := by
  obtain ⟨channel2, hrun⟩ := run_workers fc fsys files [] [] h
  exact ⟨[] ++ channel2.flatten, hrun.trans (run_drain fc fsys channel2 [])⟩

/-- A checker built by `NewFileChecker` never dereferences a missing pattern. -/
theorem CheckFile_total (rules : List Rule) :
    ∃ fc, NewFileChecker (RulesFile.parsed rules) = Except.ok fc ∧
      ∀ (fsys : Str → ReadOutcome) (path : Str), ∃ vs, CheckFile fc fsys path = some vs := by
  obtain ⟨fc, h1, -⟩ := NewFileChecker_ok rules
  refine ⟨fc, h1, fun fsys path => ?_⟩
  obtain ⟨fc2, h3, h4⟩ := ruleViolations_ok rules path
  have hfc : fc2 = fc := by
    rw [h1] at h3
    exact (Except.ok.inj h3).symm
  subst hfc
  by_cases hb : Base path = strNpmrc
  · cases hn : CheckNPMRC fsys path with
    | ok fs =>
      simp only [CheckFile, h4, hb, if_true, hn]
      exact ⟨_, rfl⟩
    | error e =>
      simp only [CheckFile, h4, hb, if_true, hn]
      exact ⟨_, rfl⟩
  · simp only [CheckFile, h4, hb, if_false]
    exact ⟨_, rfl⟩

theorem coe_flatMap_eq_sum {α β : Type} (f : α → List β) (l : List α) :
    ((l.flatMap f : List β) : Multiset β) = (l.map (fun a => (f a : Multiset β))).sum := by
  induction l with
  | nil => simp
  | cons a l ih =>
    rw [List.flatMap_cons, ← Multiset.coe_add, ih]
    simp


/-! ## The keys of the registry -/

theorem Registry.keys_set (m : Registry) (k : Str) (re : Regexp) :
    (m.set k re).keys = k :: m.keys.filter (fun x => !decide (x = k)) := by
  simp only [Registry.set, Registry.keys, List.map_cons, List.cons.injEq, true_and, ne_eq,
    decide_not]
  induction m with
  | nil => simp
  | cons e m ih =>
    by_cases h : e.1 = k <;> simp [List.filter, h, ih]

theorem compileRules_keys (rules : List Rule) (i : Nat) (m m2 : Registry)
    (h : compileRules i rules m = Except.ok m2) (hm : m.keys.Nodup) :
    m2.keys.Nodup ∧ ∀ k, k ∈ m2.keys ↔ (k ∈ m.keys ∨ k ∈ regexPatterns rules) := by
  induction rules generalizing i m with
  | nil =>
    simp only [compileRules] at h
    cases h
    exact ⟨hm, by simp [regexPatterns]⟩
  | cons rule rest ih =>
    by_cases ht : rule.Typ = strRegex
    · simp only [compileRules, ht, if_true, Compile_translatePattern] at h
      have hn : (m.set rule.Pattern (patternInsts rule.Pattern)).keys.Nodup := by
        rw [Registry.keys_set]
        refine List.nodup_cons.mpr ⟨?_, hm.filter _⟩
        simp [List.mem_filter]
      obtain ⟨h1, h2⟩ := ih (i + 1) _ h hn
      refine ⟨h1, fun k => ?_⟩
      rw [h2 k, regexPatterns_cons, if_pos ht, Registry.keys_set]
      by_cases hk : k = rule.Pattern
      · simp [hk]
      · simp [hk, List.mem_filter]
    · simp only [compileRules, ht, if_false] at h
      obtain ⟨h1, h2⟩ := ih (i + 1) m h hm
      refine ⟨h1, fun k => ?_⟩
      rw [h2 k, regexPatterns_cons, if_neg ht]

/-! ## The translation as a single pass -/

theorem escapeChar_bs : escapeChar '\\' = ['\\', '\\'] := by decide

theorem onePass_eq_pass (p : Str) : onePass p = pass true true true p := by
  induction p using twoStep with
  | nil => simp [onePass, pass_nil]
  | cons c s ihs iht =>
    by_cases hc : c = '\\'
    · subst hc
      cases s with
      | nil => simp [onePass, pass_bs_nil, escapeChar_bs]
      | cons e t =>
        have iht2 := iht e t rfl
        rw [pass_bs_cons, onePass]
        simp only [if_true, Bool.true_and, decide_eq_true_eq, escapeChar_bs, iht2, ihs]
        rfl
    · rw [pass_cons_of_ne _ _ _ _ _ hc]
      cases s with
      | nil =>
        by_cases hs : special c = true <;> simp [onePass, hc, escapeChar, hs, pass_nil]
      | cons e t =>
        rw [← ihs]
        by_cases hs : special c = true <;> simp [onePass, hc, escapeChar, hs]

/-! ## The tokens of a translated pattern -/

theorem pass_tokens (p : Str) :
    ∃ ts : List Str, (∀ t ∈ ts, IsToken t) ∧ pass true true true p = ts.flatten := by
  induction p using twoStep with
  | nil => exact ⟨[], by simp, by simp [pass_nil]⟩
  | cons c s ihs iht =>
    obtain ⟨ts, hts, hs⟩ := ihs
    have esc : ∀ m : Char, special m = true → IsToken ['\\', m] :=
      fun m hm => Or.inr (Or.inl ⟨m, hm, rfl⟩)
    have cons_tok : ∀ (t : Str) (us : List Str), IsToken t → (∀ u ∈ us, IsToken u) →
        ∀ u ∈ t :: us, IsToken u := by
      intro t us ht hus u hu
      rcases List.mem_cons.mp hu with h | h
      · rw [h]; exact ht
      · exact hus u h
    by_cases hc : c = '\\'
    · subst hc
      cases s with
      | nil =>
        exact ⟨[['\\', '\\']], cons_tok _ _ (esc _ special_bs) (by simp),
          by simp [pass_bs_nil]⟩
      | cons e t =>
        obtain ⟨us, hus, ht⟩ := iht e t rfl
        by_cases hA : e = 'A'
        · subst hA
          exact ⟨['^'] :: us, cons_tok _ _ (Or.inr (Or.inr (Or.inl rfl))) hus,
            by rw [pass_bs_A, ht]; simp⟩
        · by_cases hz : e = 'z'
          · subst hz
            exact ⟨['$'] :: us, cons_tok _ _ (Or.inr (Or.inr (Or.inr rfl))) hus,
              by rw [pass_bs_z, ht]; simp⟩
          · by_cases he : e = '.'
            · subst he
              exact ⟨['\\', '.'] :: us, cons_tok _ _ (esc _ special_dot) hus,
                by rw [pass_bs_dot, ht]; simp⟩
            · exact ⟨['\\', '\\'] :: ts, cons_tok _ _ (esc _ special_bs) hts, by
                rw [pass_bs_other _ _ _ _ _ (fun _ => hA) (fun _ => hz) (fun _ => he), hs]
                simp⟩
    · by_cases hsp : special c = true
      · exact ⟨['\\', c] :: ts, cons_tok _ _ (esc _ hsp) hts, by
          rw [pass_esc _ _ _ _ _ hsp hc, hs]; simp⟩
      · have hsp2 : special c = false := by simpa using hsp
        exact ⟨[c] :: ts, cons_tok _ _ (Or.inl ⟨c, hsp2, rfl⟩) hts, by
          rw [pass_lit _ _ _ _ _ hsp2, hs]; simp⟩

/-- Every concatenation of tokens is accepted by the regexp compiler. -/
theorem Compile_tokens (ts : List Str) (h : ∀ t ∈ ts, IsToken t) :
    ∃ re, Compile ts.flatten = some re := by
  induction ts with
  | nil => exact ⟨[], by simp [Compile]⟩
  | cons t ts ih =>
    obtain ⟨re, hre⟩ := ih (fun u hu => h u (List.mem_cons_of_mem _ hu))
    rcases h t (List.mem_cons_self _ _) with ⟨c, hc, rfl⟩ | ⟨m, hm, rfl⟩ | rfl | rfl
    · exact ⟨Inst.rune c :: re, by
        simp only [List.flatten_cons, List.singleton_append]
        rw [Compile_lit _ _ hc, hre]; rfl⟩
    · exact ⟨Inst.rune m :: re, by
        simp only [List.flatten_cons, List.cons_append, List.nil_append]
        rw [Compile_esc _ _ hm, hre]; rfl⟩
    · exact ⟨Inst.beginText :: re, by
        simp only [List.flatten_cons, List.singleton_append]
        rw [Compile_caret, hre]; rfl⟩
    · exact ⟨Inst.endText :: re, by
        simp only [List.flatten_cons, List.singleton_append]
        rw [Compile_dollar, hre]; rfl⟩

/-! ## The compilation loop over an arbitrary compiler -/

theorem compileRules_eq_with (rules : List Rule) (i : Nat) (m : Registry) :
    compileRules i rules m = compileRulesWith Compile i rules m := by
  induction rules generalizing i m with
  | nil => rfl
  | cons rule rest ih =>
    by_cases ht : rule.Typ = strRegex
    · simp only [compileRules, compileRulesWith, ht, if_true]
      cases Compile (translatePattern rule.Pattern) with
      | none => rfl
      | some re => exact ih _ _
    · simp only [compileRules, compileRulesWith, ht, if_false]
      exact ih _ _

theorem NewFileChecker_eq_with (file : RulesFile) :
    NewFileChecker file = NewFileCheckerWith Compile file := by
  cases file with
  | unreadable => rfl
  | malformed => rfl
  | parsed rules => simp only [NewFileChecker, NewFileCheckerWith, compileRules_eq_with]

/-- The loop stops with the index of the first regex-kind rule whose translated
pattern the compiler rejects. -/
theorem compileRulesWith_fail (compile : Str → Option Regexp) (before : List Rule)
    (rule : Rule) (after : List Rule) (i : Nat) (m : Registry)
    (ht : rule.Typ = strRegex) (hbad : compile (translatePattern rule.Pattern) = none)
    (hgood : ∀ r ∈ before, r.Typ = strRegex →
      ∃ re, compile (translatePattern r.Pattern) = some re) :
    compileRulesWith compile i (before ++ rule :: after) m =
      Except.error (InitError.invalidPattern (i + before.length)) := by
  induction before generalizing i m with
  | nil => simp [compileRulesWith, ht, hbad]
  | cons r rest ih =>
    have ih2 := fun i m => ih i m (fun r2 hr2 => hgood r2 (List.mem_cons_of_mem _ hr2))
    have hlen : i + (r :: rest).length = i + 1 + rest.length := by
      simp only [List.length_cons]; omega
    rw [hlen]
    by_cases hr : r.Typ = strRegex
    · obtain ⟨re, hre⟩ := hgood r (List.mem_cons_self _ _) hr
      simp only [List.cons_append, compileRulesWith, hr, if_true, hre]
      exact ih2 _ _
    · simp only [List.cons_append, compileRulesWith, hr, if_false]
      exact ih2 _ _


/-! ## A run in which the second batch arrives first -/

theorem envChecker_built :
    NewFileChecker (RulesFile.parsed envRules) = Except.ok envChecker := rfl

theorem envRun_second_first :
    CheckFilesReturns envChecker (fun _ => ReadOutcome.openError)
      [".env".toList, "x/.env".toList]
      (envViolations "x/.env".toList ++ envViolations ".env".toList) :=
  Relation.ReflTransGen.head
    (PipeStep.worker [".env".toList] [] "x/.env".toList (envViolations "x/.env".toList)
      [] [] (by decide))
    (Relation.ReflTransGen.head
      (PipeStep.worker [] [] ".env".toList (envViolations ".env".toList)
        [envViolations "x/.env".toList] [] (by decide))
      (Relation.ReflTransGen.head
        (PipeStep.receive [] (envViolations "x/.env".toList)
          [envViolations ".env".toList] [])
        (Relation.ReflTransGen.head
          (PipeStep.receive [] (envViolations ".env".toList) []
            (envViolations "x/.env".toList))
          Relation.ReflTransGen.refl)))

theorem flatMap_filter_nonempty {α β : Type} [DecidableEq β] (f : α → List β)
    (l : List α) :
    l.flatMap f = (l.filter (fun a => decide (f a ≠ []))).flatMap f := by
  induction l with
  | nil => rfl
  | cons a l ih =>
    by_cases h : f a = []
    · simp [List.filter, h, ih]
    · simp only [List.flatMap_cons, List.filter, h, ne_eq, not_false_eq_true, decide_True]
      rw [ih]

theorem CheckFile_congr (fc fc2 : FileChecker) (fsys : Str → ReadOutcome) (path : Str)
    (h : ruleViolations fc path = ruleViolations fc2 path) :
    CheckFile fc fsys path = CheckFile fc2 fsys path := by
  simp only [CheckFile, h]

/-! ## The size limits of the parser -/

theorem ParseState.maybeConcat_numRunes (p : ParseState) :
    p.maybeConcat.numRunes = p.numRunes := by
  unfold ParseState.maybeConcat
  split
  · split <;> rfl
  · rfl

theorem ParseState.maybeConcat_numRegexp (p : ParseState) :
    p.maybeConcat.numRegexp = p.numRegexp := by
  unfold ParseState.maybeConcat
  split
  · split <;> rfl
  · rfl

theorem ParseState.maybeConcat_tracking (p : ParseState) :
    p.maybeConcat.tracking = p.tracking := by
  unfold ParseState.maybeConcat
  split
  · split <;> rfl
  · rfl

theorem ParseState.maybeConcat_runes (p : ParseState) :
    (p.maybeConcat.stack.map (fun n => n.runes)).sum = (p.stack.map (fun n => n.runes)).sum := by
  unfold ParseState.maybeConcat
  split
  · rename_i re1 re2 rest h
    split
    · simp only [h, List.map_cons, List.sum_cons]
      omega
    · rfl
  · rfl

theorem ParseState.checkLimits_none (p : ParseState) (h : p.numRunes > maxRunes) :
    p.checkLimits = none := by
  simp [ParseState.checkLimits, h]

theorem ParseState.checkLimits_numRunes (p q : ParseState) (h : p.checkLimits = some q) :
    q.numRunes = p.numRunes := by
  unfold ParseState.checkLimits at h
  split_ifs at h
  · split at h
    · cases h; rfl
    · split_ifs at h
      cases h; rfl
  · cases h; rfl
  · cases h; rfl

theorem ParseState.push_none (p : ParseState) (re : PNode) (h : p.numRunes > maxRunes) :
    p.push re = none := by
  unfold ParseState.push
  apply ParseState.checkLimits_none
  simp only [ParseState.maybeConcat_numRunes]
  omega

theorem ParseState.push_numRunes (p q : ParseState) (re : PNode) (h : p.push re = some q) :
    q.numRunes = p.numRunes + re.runes := by
  unfold ParseState.push at h
  rw [ParseState.checkLimits_numRunes _ q h]
  simp only [ParseState.maybeConcat_numRunes]

theorem ParseState.newRegexp_numRunes (p : ParseState) :
    p.newRegexp.numRunes = p.numRunes := by
  unfold ParseState.newRegexp
  split <;> rfl

theorem ParseState.token_numRunes (p q : ParseState) (b : Bool) (h : p.token b = some q) :
    q.numRunes = p.numRunes + (if b then 1 else 0) := by
  unfold ParseState.token at h
  rw [ParseState.push_numRunes _ q _ h, ParseState.newRegexp_numRunes]

theorem ParseState.concat_none (p : ParseState) (h : p.numRunes > maxRunes) :
    p.concat = none := by
  unfold ParseState.concat
  have hm : p.maybeConcat.numRunes > maxRunes := by
    rw [ParseState.maybeConcat_numRunes]; exact h
  dsimp only
  split
  · exact ParseState.push_none _ _ (by rw [ParseState.newRegexp_numRunes]; exact hm)
  · exact ParseState.push_none _ _ hm
  · exact ParseState.push_none _ _ (by rw [ParseState.newRegexp_numRunes]; exact hm)

theorem foldl_tokens_none (re : Regexp) :
    re.foldl (fun st i => st.bind (fun p => ParseState.token p (Inst.isRune i)))
      (none : Option ParseState) = none := by
  induction re with
  | nil => rfl
  | cons i re ih => simpa using ih

/-- The parser gives up as soon as more than `maxRunes` literal runes are counted. -/
theorem parse_too_many_runes (re : Regexp) (p : ParseState)
    (h : p.numRunes + re.countP Inst.isRune > maxRunes) :
    (re.foldl (fun st i => st.bind (fun p => ParseState.token p (Inst.isRune i)))
      (some p)).bind ParseState.concat = none := by
  induction re generalizing p with
  | nil =>
    simp only [List.countP_nil, Nat.add_zero] at h
    simpa using ParseState.concat_none p h
  | cons i re ih =>
    simp only [List.foldl_cons, Option.some_bind]
    cases hq : p.token i.isRune with
    | none =>
      rw [foldl_tokens_none]
      rfl
    | some q =>
      apply ih
      rw [ParseState.token_numRunes p q _ hq]
      rw [List.countP_cons] at h
      cases hi : i.isRune <;> simp [hi] at h ⊢ <;> omega

theorem parserAccepts_false_of_runes (re : Regexp) (h : re.countP Inst.isRune > maxRunes) :
    parserAccepts re = false := by
  have h2 := parse_too_many_runes re ⟨[], 0, 0, 0, false⟩ (by simpa using h)
  simp [parserAccepts, parseLimits, h2]

theorem ParseState.checkLimits_small (p : ParseState) (ht : p.tracking = false)
    (hr : p.numRunes ≤ maxRunes) (hn : p.numRegexp < maxSize) :
    p.checkLimits = some p := by
  have hr2 : ¬ p.numRunes > maxRunes := by omega
  simp [ParseState.checkLimits, ht, hn, hr2]

theorem ParseState.push_small (p : ParseState) (re : PNode) (ht : p.tracking = false)
    (hn : p.numRegexp < maxSize) (hr : p.numRunes + re.runes ≤ maxRunes) :
    ∃ q, p.push re = some q ∧ q.tracking = false ∧ q.numRegexp = p.numRegexp ∧
      q.numRunes = p.numRunes + re.runes ∧
      (q.stack.map (fun n => n.runes)).sum = (p.stack.map (fun n => n.runes)).sum + re.runes ∧
      (p.stack = [] → q.stack = [re]) := by
  let p1 : ParseState := { p with numRunes := p.numRunes + re.runes }
  have e : p.push re = ParseState.checkLimits { p1.maybeConcat with stack := re :: p1.maybeConcat.stack } :=
    rfl
  have h1 : p1.maybeConcat.tracking = false := by
    rw [ParseState.maybeConcat_tracking]; exact ht
  have h2 : p1.maybeConcat.numRegexp = p.numRegexp := by
    rw [ParseState.maybeConcat_numRegexp]
  have h3 : p1.maybeConcat.numRunes = p.numRunes + re.runes := by
    rw [ParseState.maybeConcat_numRunes]
  have h4 : (p1.maybeConcat.stack.map (fun n => n.runes)).sum
      = (p.stack.map (fun n => n.runes)).sum := by
    rw [ParseState.maybeConcat_runes]
  refine ⟨{ p1.maybeConcat with stack := re :: p1.maybeConcat.stack }, ?_, ?_⟩
  · rw [e]
    exact ParseState.checkLimits_small _ h1 (by simp only [h3]; exact hr)
      (by simp only [h2]; exact hn)
  · refine ⟨h1, h2, h3, ?_, ?_⟩
    · simp only [List.map_cons, List.sum_cons, h4]
      omega
    · intro hs
      have : p1.maybeConcat.stack = [] := by
        simp [ParseState.maybeConcat, p1, hs]
      simp only [this]

theorem ParseState.newRegexp_small (p : ParseState) :
    p.newRegexp.tracking = p.tracking ∧ p.newRegexp.stack = p.stack ∧
      p.newRegexp.numRegexp ≤ p.numRegexp + 1 ∧ p.newRegexp.numRunes = p.numRunes := by
  unfold ParseState.newRegexp
  split
  · exact ⟨rfl, rfl, Nat.le_succ _, rfl⟩
  · exact ⟨rfl, rfl, Nat.le_refl _, rfl⟩

theorem ParseState.token_small (p : ParseState) (b : Bool) (k : Nat)
    (ht : p.tracking = false) (hn : p.numRegexp ≤ k) (hr : p.numRunes ≤ k)
    (hs : (p.stack.map (fun n => n.runes)).sum ≤ p.numRunes) (hk : k + 1 < maxSize) :
    ∃ q, p.token b = some q ∧ q.tracking = false ∧ q.numRegexp ≤ k + 1 ∧
      q.numRunes ≤ k + 1 ∧ (q.stack.map (fun n => n.runes)).sum ≤ q.numRunes := by
  obtain ⟨n1, n2, n3, n4⟩ := p.newRegexp_small
  have hb : (if b then 1 else 0 : Nat) ≤ 1 := by cases b <;> simp
  have hmax : maxSize ≤ maxRunes := by decide
  obtain ⟨q, h1, h2, h3, h4, h5, -⟩ :=
    ParseState.push_small p.newRegexp ⟨b, if b then 1 else 0, 0, 0⟩ (by rw [n1]; exact ht)
      (by omega) (by simp only [n4]; omega)
  refine ⟨q, h1, h2, by omega, ?_, ?_⟩
  · rw [h4, n4]; simp only; omega
  · rw [h5, h4, n2, n4]; omega

theorem foldl_tokens_small (re : Regexp) (p : ParseState) (k : Nat)
    (ht : p.tracking = false) (hn : p.numRegexp ≤ k) (hr : p.numRunes ≤ k)
    (hs : (p.stack.map (fun n => n.runes)).sum ≤ p.numRunes)
    (hk : k + re.length < maxSize) :
    ∃ q, re.foldl (fun st i => st.bind (fun p => ParseState.token p (Inst.isRune i)))
        (some p) = some q ∧ q.tracking = false ∧ q.numRegexp ≤ k + re.length ∧
      q.numRunes ≤ k + re.length ∧ (q.stack.map (fun n => n.runes)).sum ≤ q.numRunes := by
  induction re generalizing p k with
  | nil => exact ⟨p, rfl, ht, hn, hr, hs⟩
  | cons i re ih =>
    simp only [List.length_cons] at hk ⊢
    obtain ⟨q, h1, h2, h3, h4, h5⟩ := p.token_small i.isRune k ht hn hr hs (by omega)
    obtain ⟨q2, g1, g2, g3, g4, g5⟩ := ih q (k + 1) h2 h3 h4 h5 (by omega)
    refine ⟨q2, ?_, g2, by omega, by omega, g5⟩
    simp only [List.foldl_cons, Option.some_bind, h1]
    exact g1

theorem ParseState.push_new_small (p0 : ParseState) (node : PNode) (k : Nat)
    (ht : p0.tracking = false) (hn : p0.numRegexp ≤ k) (hr : p0.numRunes ≤ k)
    (hst : p0.stack = []) (hnode : node.runes = 0) (hk : k + 1 < maxSize) :
    ∃ q, p0.newRegexp.push node = some q ∧ q.stack = [node] ∧ q.tracking = false ∧
      q.numRegexp ≤ k + 1 ∧ q.numRunes ≤ k := by
  have hmax : 3 * maxSize ≤ maxRunes := by decide
  obtain ⟨n1, n2, n3, n4⟩ := p0.newRegexp_small
  obtain ⟨q, h1, h2, h3, h4, -, h6⟩ :=
    ParseState.push_small p0.newRegexp node (by rw [n1]; exact ht) (by omega)
      (by rw [n4, hnode]; omega)
  exact ⟨q, h1, h6 (by rw [n2]; exact hst), h2, by omega, by rw [h4, n4, hnode]; omega⟩

theorem ParseState.finish_small (p : ParseState) (k : Nat)
    (ht : p.tracking = false) (hn : p.numRegexp ≤ k) (hr : p.numRunes ≤ k)
    (hs : (p.stack.map (fun n => n.runes)).sum ≤ p.numRunes) (hk : k + 1 < maxSize) :
    ∃ q, p.concat.bind ParseState.alternate = some q := by
  have hmax : 3 * maxSize ≤ maxRunes := by decide
  have m1 := p.maybeConcat_tracking
  have m2 := p.maybeConcat_numRegexp
  have m3 := p.maybeConcat_numRunes
  have m4 := p.maybeConcat_runes
  have key : ∃ q x, p.concat = some q ∧ q.stack = [x] ∧ q.tracking = false ∧
      q.numRegexp ≤ k + 1 ∧ q.numRunes ≤ 2 * k ∧ x.runes ≤ k := by
    unfold ParseState.concat
    dsimp only
    split
    · rename_i hst
      obtain ⟨q, h1, h2, h3, h4, h5⟩ :=
        ParseState.push_new_small p.maybeConcat ⟨false, 0, 0, 0⟩ k (by rw [m1]; exact ht)
          (by omega) (by omega) hst rfl hk
      exact ⟨q, _, h1, h2, h3, h4, by omega, Nat.zero_le _⟩
    · rename_i x hst
      have hx : x.runes ≤ k := by
        rw [hst] at m4
        simp only [List.map_cons, List.map_nil, List.sum_cons, List.sum_nil] at m4
        omega
      obtain ⟨q, h1, h2, h3, h4, -, h6⟩ :=
        ParseState.push_small { p.maybeConcat with stack := [] } x (by simp only [m1]; exact ht)
          (by simp only [m2]; omega) (by simp only [m3]; omega)
      exact ⟨q, x, h1, h6 rfl, h2, by simp only at h3; omega,
        by rw [h4]; simp only [m3]; omega, hx⟩
    · obtain ⟨q, h1, h2, h3, h4, h5⟩ :=
        ParseState.push_new_small { p.maybeConcat with stack := [] }
          ⟨false, 0, (p.maybeConcat.stack.map
            (fun n => if p.maybeConcat.tracking then n.size else n.calcSize)).sum, 0⟩ k
          (by simp only [m1]; exact ht) (by simp only [m2]; omega) (by simp only [m3]; omega)
          rfl rfl hk
      exact ⟨q, _, h1, h2, h3, h4, by omega, Nat.zero_le _⟩
  obtain ⟨q, x, h1, h2, h3, h4, h5, h6⟩ := key
  obtain ⟨q2, g1, -⟩ :=
    ParseState.push_small { q with stack := [] } x h3 (by simp only; omega)
      (by simp only; omega)
  refine ⟨q2, ?_⟩
  rw [h1]
  simp only [Option.some_bind, ParseState.alternate, h2]
  exact g1

/-- A pattern of fewer than `maxSize - 1` tokens passes the size accounting. -/
theorem parserAccepts_of_small (re : Regexp) (h : re.length + 1 < maxSize) :
    parserAccepts re = true := by
  obtain ⟨q, h1, h2, h3, h4, h5⟩ :=
    foldl_tokens_small re ⟨[], 0, 0, 0, false⟩ 0 rfl (Nat.le_refl _) (Nat.le_refl _)
      (by simp) (by omega)
  obtain ⟨q2, g⟩ := q.finish_small (0 + re.length) h2 h3 h4 h5 (by omega)
  simp only [parserAccepts, parseLimits, h1, Option.some_bind]
  have g2 : (q.concat.bind fun a => a.alternate) = some q2 := g
  rw [g2]
  rfl


/-! ## The compiler with the size limits -/

theorem patternInsts_length_le (p : Str) : (patternInsts p).length ≤ p.length := by
  induction p using twoStep with
  | nil => simp [patternInsts_nil]
  | cons c s ihs iht =>
    by_cases hc : c = '\\'
    · subst hc
      cases s with
      | nil => simp [patternInsts_bs_nil]
      | cons e t =>
        have iht2 := iht e t rfl
        rw [patternInsts_bs_cons]
        split_ifs <;> simp only [List.length_cons] at ihs ⊢ <;> omega
    · rw [patternInsts_cons_of_ne _ _ hc]
      simp only [List.length_cons]
      omega

theorem CompileWithLimits_translatePattern (p : Str) :
    CompileWithLimits (translatePattern p) =
      if parserAccepts (patternInsts p) then some (patternInsts p) else none := by
  simp only [CompileWithLimits, Compile_translatePattern]

/-- With every regex-kind pattern inside the limits, the loop over the compiler with
limits is the loop over the compiler without them. -/
theorem compileRulesWith_limits_eq (rules : List Rule) (i : Nat) (m : Registry)
    (h : ∀ r ∈ rules, r.Typ = strRegex → parserAccepts (patternInsts r.Pattern) = true) :
    compileRulesWith CompileWithLimits i rules m = compileRules i rules m := by
  induction rules generalizing i m with
  | nil => rfl
  | cons rule rest ih =>
    have ih2 := fun i m => ih i m (fun r hr => h r (List.mem_cons_of_mem _ hr))
    by_cases ht : rule.Typ = strRegex
    · have ha := h rule (List.mem_cons_self _ _) ht
      simp only [compileRulesWith, compileRules, ht, if_true, CompileWithLimits_translatePattern,
        ha, Compile_translatePattern]
      exact ih2 _ _
    · simp only [compileRulesWith, compileRules, ht, if_false]
      exact ih2 _ _

/-- The loop over the compiler with limits fails only at a regex-kind rule whose
pattern is beyond the limits, with the index of that rule. -/
theorem compileRulesWith_limits_error (rules : List Rule) (i : Nat) (m : Registry)
    (e : InitError) (h : compileRulesWith CompileWithLimits i rules m = Except.error e) :
    ∃ before rule after, rules = before ++ rule :: after ∧
      e = InitError.invalidPattern (i + before.length) ∧ rule.Typ = strRegex ∧
      parserAccepts (patternInsts rule.Pattern) = false := by
  induction rules generalizing i m with
  | nil => simp [compileRulesWith] at h
  | cons rule rest ih =>
    by_cases ht : rule.Typ = strRegex
    · by_cases ha : parserAccepts (patternInsts rule.Pattern) = true
      · simp only [compileRulesWith, ht, if_true, CompileWithLimits_translatePattern, ha] at h
        obtain ⟨before, r, after, h1, h2, h3, h4⟩ := ih _ _ h
        refine ⟨rule :: before, r, after, by rw [h1]; rfl, ?_, h3, h4⟩
        rw [h2, List.length_cons]
        congr 1
        omega
      · have ha2 : parserAccepts (patternInsts rule.Pattern) = false := by simpa using ha
        simp only [compileRulesWith, ht, if_true, CompileWithLimits_translatePattern, ha2,
          Bool.false_eq_true, if_false] at h
        exact ⟨[], rule, rest, rfl, by cases h; rfl, ht, ha2⟩
    · simp only [compileRulesWith, ht, if_false] at h
      obtain ⟨before, r, after, h1, h2, h3, h4⟩ := ih _ _ h
      refine ⟨rule :: before, r, after, by rw [h1]; rfl, ?_, h3, h4⟩
      rw [h2, List.length_cons]
      congr 1
      omega

theorem countP_isRune_map (s : Str) : (s.map Inst.rune).countP Inst.isRune = s.length := by
  induction s with
  | nil => rfl
  | cons c s ih => simp [List.countP_cons, Inst.isRune, ih]

theorem hugePattern_rejected : parserAccepts (patternInsts hugePattern) = false := by
  have hb : '\\' ∉ hugePattern := by
    intro h
    have := (List.mem_replicate.mp h).2
    exact absurd this (by decide)
  rw [patternInsts_noBackslash _ hb]
  apply parserAccepts_false_of_runes
  rw [countP_isRune_map, hugePattern, List.length_replicate]
  exact Nat.lt_succ_self _

theorem hugeRule_bad : CompileWithLimits (translatePattern hugeRule.Pattern) = none := by
  rw [CompileWithLimits_translatePattern]
  have : hugeRule.Pattern = hugePattern := rfl
  rw [this, hugePattern_rejected]
  rfl

theorem hugeRule_loop :
    compileRulesWith CompileWithLimits 0 [noExtensionRule, hugeRule] [] =
      Except.error (InitError.invalidPattern 1) :=
  compileRulesWith_fail CompileWithLimits [noExtensionRule] hugeRule [] 0 []
    rfl hugeRule_bad (by
      intro r hr ht
      simp only [List.mem_singleton] at hr
      subst hr
      exact absurd ht (by decide))

theorem NewFileCheckerWith_error (compile : Str → Option Regexp) (rules : List Rule)
    (e : InitError) (h : compileRulesWith compile 0 rules [] = Except.error e) :
    NewFileCheckerWith compile (RulesFile.parsed rules) = Except.error e := by
  simp only [NewFileCheckerWith, h]

/-- The rule list of the oversized example makes the compilation loop stop at rule 1
with the invalid-pattern error. -/
theorem hugeRule_fails :
    NewFileCheckerWith CompileWithLimits (RulesFile.parsed [noExtensionRule, hugeRule]) =
      Except.error (InitError.invalidPattern 1) :=
  NewFileCheckerWith_error CompileWithLimits [noExtensionRule, hugeRule]
    (InitError.invalidPattern 1) hugeRule_loop

theorem translatePattern_replicate_a (n : Nat) :
    translatePattern (List.replicate n 'a') = List.replicate n 'a' := by
  rw [translatePattern_eq_pass]
  induction n with
  | zero => simp [pass_nil]
  | succ n ih => rw [List.replicate_succ, pass_lit _ _ _ _ _ (by decide), ih]

/-! ## The claims -/

/-- C1: for every rule list and every path, the checker built from the rules returns,
as the rule-derived violations of the path, exactly the list obtained by walking the
rules in declaration order and emitting one violation (path, caption, description)
for each rule that matches; no match is skipped and nothing is deduplicated. A file
named `.env` that an exact file-name rule and a path regex rule both match yields two
violations. -/
theorem C1_rule_violations_in_declaration_order :
    (∀ (rules : List Rule) (path : Str),
      ∃ fc, NewFileChecker (RulesFile.parsed rules) = Except.ok fc ∧
        ruleViolations fc path =
          some ((rules.filter (fun r => ruleApplies r path)).map (violationOf path))) ∧
    (∃ fc, NewFileChecker (RulesFile.parsed envRules) = Except.ok fc ∧
      ruleViolations fc ".env".toList =
        some [⟨".env".toList, "Environment file".toList, "May hold secrets".toList⟩,
              ⟨".env".toList, "Dotenv path".toList, []⟩]) := by
  refine ⟨fun rules path => ?_, ?_⟩
  · obtain ⟨fc, h1, h2, h3⟩ := NewFileChecker_ok rules
    refine ⟨fc, h1, ?_⟩
    rw [ruleViolations, h2, checkRules_eq]
    · simp
    · intro r hr ht
      rw [h3, if_pos (mem_regexPatterns rules r hr ht)]
  · obtain ⟨fc, h1, h2⟩ := ruleViolations_ok envRules ".env".toList
    exact ⟨fc, h1, h2.trans (by decide)⟩

/-- C2: for every string `s` without a backslash, a regex-kind rule whose pattern is
backslash-A, `s`, backslash-z has its pattern translated to `^`, the quoted `s`, `$`,
and the matcher stored for it accepts a value exactly when the value equals `s`. The
pattern for `.env` translates to `^\.env$`, accepts `.env` and rejects `xenv` and
`a.env`. -/
theorem C2_anchored_pattern_is_equality :
    (∀ (rules : List Rule) (r : Rule) (s : Str), r ∈ rules → r.Typ = strRegex →
      r.Pattern = '\\' :: 'A' :: (s ++ ['\\', 'z']) → '\\' ∉ s →
      translatePattern r.Pattern = '^' :: (QuoteMeta s ++ ['$']) ∧
      ∃ fc re, NewFileChecker (RulesFile.parsed rules) = Except.ok fc ∧
        fc.patterns.get r.Pattern = some re ∧
        Compile (translatePattern r.Pattern) = some re ∧
        ∀ v, MatchString re v = true ↔ v = s) ∧
    translatePattern "\\A.env\\z".toList = "^\\.env$".toList ∧
    patternAccepts "\\A.env\\z".toList ".env".toList = true ∧
    patternAccepts "\\A.env\\z".toList "xenv".toList = false ∧
    patternAccepts "\\A.env\\z".toList "a.env".toList = false := by
  refine ⟨?_, by decide, by decide, by decide, by decide⟩
  intro rules r s hr ht hp hs
  obtain ⟨fc, h1, -, h3⟩ := NewFileChecker_ok rules
  refine ⟨?_, fc, patternInsts r.Pattern, h1, ?_, Compile_translatePattern _, ?_⟩
  · rw [hp, translatePattern_anchored s hs]
  · rw [h3, if_pos (mem_regexPatterns rules r hr ht)]
  · intro v
    rw [hp, patternInsts_anchored s hs]
    exact MatchString_anchored s v

/-- Witness of C2 at the rule list holding the anchored `.env` rule. -/
theorem C2_witness :
    translatePattern anchoredEnvRule.Pattern = '^' :: (QuoteMeta ".env".toList ++ ['$']) ∧
    ∃ fc re, NewFileChecker (RulesFile.parsed [anchoredEnvRule]) = Except.ok fc ∧
      fc.patterns.get anchoredEnvRule.Pattern = some re ∧
      Compile (translatePattern anchoredEnvRule.Pattern) = some re ∧
      ∀ v, MatchString re v = true ↔ v = ".env".toList :=
  C2_anchored_pattern_is_equality.1 [anchoredEnvRule] anchoredEnvRule ".env".toList
    (by decide) (by decide) (by decide) (by decide)

/-- Counterexample to C3: the matcher built for the pattern `id_rsa` accepts the file
name `my_id_rsa.pub`, which is not the string `id_rsa`, and the rule is reported. -/
theorem C3_counterexample :
    ∃ fc re, NewFileChecker (RulesFile.parsed [idRsaRule]) = Except.ok fc ∧
      fc.patterns.get idRsaRule.Pattern = some re ∧
      MatchString re "my_id_rsa.pub".toList = true ∧
      "my_id_rsa.pub".toList ≠ idRsaRule.Pattern ∧
      ruleViolations fc "my_id_rsa.pub".toList =
        some [⟨"my_id_rsa.pub".toList, "Private SSH key".toList, []⟩] := by
  obtain ⟨fc, h1, h2⟩ := ruleViolations_ok [idRsaRule] "my_id_rsa.pub".toList
  obtain ⟨fc2, h3, -, h4⟩ := NewFileChecker_ok [idRsaRule]
  have hfc : fc2 = fc := by
    rw [h1] at h3
    exact (Except.ok.inj h3).symm
  subst hfc
  refine ⟨fc2, patternInsts idRsaRule.Pattern, h1, ?_, by decide, by decide,
    h2.trans (by decide)⟩
  rw [h4]
  decide

/-- C3, amended: a regex-kind rule whose pattern contains none of the sequences
backslash-A, backslash-z, backslash-dot matches a tested value exactly when the
value contains the literal pattern as a contiguous substring. -/
theorem C3_plain_pattern_is_substring_search (rules : List Rule) (r : Rule)
    (hr : r ∈ rules) (ht : r.Typ = strRegex) (hA : ¬ ['\\', 'A'] <:+: r.Pattern)
    (hz : ¬ ['\\', 'z'] <:+: r.Pattern) (hd : ¬ ['\\', '.'] <:+: r.Pattern) :
    ∃ fc re, NewFileChecker (RulesFile.parsed rules) = Except.ok fc ∧
      fc.patterns.get r.Pattern = some re ∧
      ∀ v, MatchString re v = true ↔ r.Pattern <:+: v := by
  obtain ⟨fc, h1, -, h3⟩ := NewFileChecker_ok rules
  refine ⟨fc, patternInsts r.Pattern, h1, ?_, ?_⟩
  · rw [h3, if_pos (mem_regexPatterns rules r hr ht)]
  · intro v
    rw [patternInsts_plain _ hA hz hd]
    exact MatchString_lit _ v

/-- Witness of the amended C3 at the rule with the pattern `id_rsa`. -/
theorem C3_witness :
    ∃ fc re, NewFileChecker (RulesFile.parsed [idRsaRule]) = Except.ok fc ∧
      fc.patterns.get idRsaRule.Pattern = some re ∧
      ∀ v, MatchString re v = true ↔ idRsaRule.Pattern <:+: v :=
  C3_plain_pattern_is_substring_search [idRsaRule] idRsaRule (by decide) (by decide)
    (by decide) (by decide) (by decide)

/-- Counterexample to C4: the pattern backslash-dot does not translate to the
one-character source `.`; it translates to backslash-dot, and its matcher rejects
the single character `a`. -/
theorem C4_counterexample :
    translatePattern ['\\', '.'] ≠ ['.'] ∧
    translatePattern ['\\', '.'] = ['\\', '.'] ∧
    patternAccepts ['\\', '.'] ['a'] = false := by
  decide

/-- C4, amended: the pattern consisting of a backslash followed by a dot translates
to the two-character source backslash-dot, the escaped literal dot, whose matcher
accepts exactly the values that contain a dot. -/
theorem C4_backslash_dot_is_literal_dot :
    translatePattern ['\\', '.'] = ['\\', '.'] ∧
    ∃ re, Compile (translatePattern ['\\', '.']) = some re ∧
      ∀ v : Str, MatchString re v = true ↔ '.' ∈ v := by
  refine ⟨by decide, [Inst.rune '.'], by decide, ?_⟩
  intro v
  have h := MatchString_lit ['.'] v
  simp only [List.map_cons, List.map_nil] at h
  rw [h]
  constructor
  · rintro ⟨s, t, rfl⟩
    simp
  · intro hv
    obtain ⟨s, t, rfl⟩ := List.append_of_mem hv
    exact ⟨s, t, by simp⟩

/-- C5: a rule whose kind is any string other than `regex` and whose part is
filename, extension or path matches a path exactly when the selected facet equals
its pattern, whatever the registry holds; with an empty registry the rule loop
still returns, reporting the rule exactly in that case. -/
theorem C5_non_regex_kind_is_exact_match (rule : Rule) (path : Str)
    (ht : rule.Typ ≠ strRegex)
    (hp : rule.Part = strFilename ∨ rule.Part = strExtension ∨ rule.Part = strPath) :
    (∀ patterns : Registry, ruleMatch patterns rule (Base path) (extOf path) path =
      some (decide (selectFacet rule.Part path = rule.Pattern))) ∧
    ruleViolations ⟨[rule], []⟩ path =
      some (if selectFacet rule.Part path = rule.Pattern then [violationOf path rule]
            else []) := by
  have hfe : strFilename ≠ strExtension := by decide
  have hfp : strFilename ≠ strPath := by decide
  have hep : strExtension ≠ strPath := by decide
  have key : ∀ patterns : Registry, ruleMatch patterns rule (Base path) (extOf path) path =
      some (decide (selectFacet rule.Part path = rule.Pattern)) := by
    intro patterns
    rcases hp with h | h | h
    · simp [ruleMatch, selectFacet, ht, h]
    · simp [ruleMatch, selectFacet, ht, h, hfe.symm]
    · simp [ruleMatch, selectFacet, ht, h, hfp.symm, hep.symm]
  refine ⟨key, ?_⟩
  have hk := key []
  by_cases hm : selectFacet rule.Part path = rule.Pattern
  · rw [hm] at hk
    simp [ruleViolations, checkRules, hk, hm, violationOf]
  · simp only [hm, decide_False] at hk
    simp [ruleViolations, checkRules, hk, hm]

/-- Witness of C5 at a rule of kind `match` on the extension `pem`. -/
theorem C5_witness :
    (∀ patterns : Registry,
      ruleMatch patterns ⟨strExtension, "match".toList, "pem".toList, "Key".toList, []⟩
        (Base "keys/server.pem".toList) (extOf "keys/server.pem".toList)
        "keys/server.pem".toList =
      some (decide (selectFacet strExtension "keys/server.pem".toList = "pem".toList))) ∧
    ruleViolations ⟨[⟨strExtension, "match".toList, "pem".toList, "Key".toList, []⟩], []⟩
        "keys/server.pem".toList =
      some (if selectFacet strExtension "keys/server.pem".toList = "pem".toList then
          [violationOf "keys/server.pem".toList
            ⟨strExtension, "match".toList, "pem".toList, "Key".toList, []⟩]
        else []) :=
  C5_non_regex_kind_is_exact_match
    ⟨strExtension, "match".toList, "pem".toList, "Key".toList, []⟩
    "keys/server.pem".toList (by decide) (by decide)

/-- Counterexample to C6: for the path `a.b/` the file name is `a.b`, whose part after
the last dot is `b`, while the extension that `CheckFile` tests is empty. -/
theorem C6_counterexample :
    Base "a.b/".toList = "a.b".toList ∧ extOf "a.b/".toList = [] ∧
      afterLastDot (Base "a.b/".toList) = ['b'] ∧
      extOf "a.b/".toList ≠ afterLastDot (Base "a.b/".toList) := by
  decide

/-- C6, amended: for every path that does not end in a slash, the extension that
`CheckFile` tests equals the substring after the last dot of the file name; and for
every path, the extension is empty when the file name contains no dot. -/
theorem C6_extension_of_filename (path : Str) :
    (path.getLast? ≠ some '/' → extOf path = afterLastDot (Base path)) ∧
    ('.' ∉ Base path → extOf path = []) :=
  ⟨afterLastDot_Base path, extOf_of_no_dot path⟩

/-- Witness of the amended C6 at the paths `dist/app.tar.gz` and `bin/tool`. -/
theorem C6_witness :
    extOf "dist/app.tar.gz".toList = afterLastDot (Base "dist/app.tar.gz".toList) ∧
      extOf "bin/tool".toList = [] :=
  ⟨(C6_extension_of_filename "dist/app.tar.gz".toList).1 (by decide),
    (C6_extension_of_filename "bin/tool".toList).2 (by decide)⟩

/-- C7: for every rule of the rule list with part extension, a kind other than
`regex` and the empty pattern, and every path whose file name contains no dot,
`CheckFile` returns a list that contains the violation of that rule. -/
theorem C7_empty_extension_rule_matches (rules : List Rule) (rule : Rule)
    (fsys : Str → ReadOutcome) (path : Str) (hr : rule ∈ rules)
    (hp : rule.Part = strExtension) (ht : rule.Typ ≠ strRegex) (hpat : rule.Pattern = [])
    (hdot : '.' ∉ Base path) :
    ∃ fc vs, NewFileChecker (RulesFile.parsed rules) = Except.ok fc ∧
      CheckFile fc fsys path = some vs ∧ violationOf path rule ∈ vs := by
  obtain ⟨fc, h1, h2⟩ := ruleViolations_ok rules path
  have hb : Base path ≠ strNpmrc := by
    intro hb
    rw [hb] at hdot
    exact hdot (by decide)
  have hef : strExtension ≠ strFilename := by decide
  have happ : ruleApplies rule path = true := by
    simp [ruleApplies, selectFacet, hp, ht, hpat, hef, extOf_of_no_dot path hdot]
  refine ⟨fc, (rules.filter (fun r => ruleApplies r path)).map (violationOf path), h1, ?_, ?_⟩
  · simp only [CheckFile, h2, hb, if_false]
  · exact List.mem_map.mpr ⟨rule, List.mem_filter.mpr ⟨hr, happ⟩, rfl⟩

/-- Witness of C7 at the path `bin/Makefile`. -/
theorem C7_witness :
    ∃ fc vs, NewFileChecker (RulesFile.parsed [noExtensionRule]) = Except.ok fc ∧
      CheckFile fc (fun _ => ReadOutcome.openError) "bin/Makefile".toList = some vs ∧
      violationOf "bin/Makefile".toList noExtensionRule ∈ vs :=
  C7_empty_extension_rule_matches [noExtensionRule] noExtensionRule
    (fun _ => ReadOutcome.openError) "bin/Makefile".toList (by decide) (by decide)
    (by decide) (by decide) (by decide)

/-- C8: for every sequence of lines read without error, `CheckNPMRC` returns exactly
the findings in file order, where line number k (from 1) gives first the `_auth`
finding if it contains `_auth=` and then the `_authToken` finding if it contains
`_authToken=`; a line with both markers gives two findings; the three-line scenario
gives the findings for line 2 and then line 3. -/
theorem C8_findings_in_file_order :
    (∀ (fsys : Str → ReadOutcome) (path : Str) (lines : List Str),
      fsys path = ReadOutcome.scanned lines false →
      CheckNPMRC fsys path =
        Except.ok ((lines.enumFrom 1).flatMap (fun kl => lineFindings kl.1 kl.2))) ∧
    (∀ (k : Nat) (line : Str), strAuth <:+: line → strAuthToken <:+: line →
      lineFindings k line = [msgAuth k, msgAuthToken k]) ∧
    CheckNPMRC (fun _ => ReadOutcome.scanned npmrcLines false) ".npmrc".toList =
      Except.ok ["Found _authToken at line 2".toList, "Found _auth token at line 3".toList] := by
  have main : ∀ (fsys : Str → ReadOutcome) (path : Str) (lines : List Str),
      fsys path = ReadOutcome.scanned lines false →
      CheckNPMRC fsys path =
        Except.ok ((lines.enumFrom 1).flatMap (fun kl => lineFindings kl.1 kl.2)) := by
    intro fsys path lines h
    simp [CheckNPMRC, h, scanLines_eq]
  refine ⟨main, ?_, ?_⟩
  · intro k line h1 h2
    simp [lineFindings, h1, h2]
  · rw [main _ _ npmrcLines rfl]
    exact congrArg Except.ok (by decide)

/-- Witness of C8 at a file with the single line holding both markers. -/
theorem C8_witness :
    CheckNPMRC (fun _ => ReadOutcome.scanned [bothMarkersLine] false) ".npmrc".toList =
      Except.ok (([bothMarkersLine].enumFrom 1).flatMap (fun kl => lineFindings kl.1 kl.2)) ∧
    lineFindings 1 bothMarkersLine = [msgAuth 1, msgAuthToken 1] :=
  ⟨C8_findings_in_file_order.1 (fun _ => ReadOutcome.scanned [bothMarkersLine] false)
      ".npmrc".toList [bothMarkersLine] rfl,
    C8_findings_in_file_order.2.1 1 bothMarkersLine (by decide) (by decide)⟩

/-- Counterexample to C9: a file whose only line holds both markers has one
offending line and two findings. -/
theorem C9_counterexample :
    CheckNPMRC (fun _ => ReadOutcome.scanned [bothMarkersLine] false) ".npmrc".toList =
      Except.ok [msgAuth 1, msgAuthToken 1] ∧
    ([bothMarkersLine].filter
      (fun l => decide (strAuth <:+: l ∨ strAuthToken <:+: l))).length = 1 :=
  ⟨rfl, by decide⟩

/-- C9, amended: for every file read without error, the number of findings is the
number of lines that contain `_auth=` plus the number of lines that contain
`_authToken=`; it is at least the number of offending lines and at most twice it. -/
theorem C9_findings_count (fsys : Str → ReadOutcome) (path : Str) (lines : List Str)
    (h : fsys path = ReadOutcome.scanned lines false) :
    ∃ fs, CheckNPMRC fsys path = Except.ok fs ∧
      fs.length = (lines.filter (fun l => decide (strAuth <:+: l))).length +
        (lines.filter (fun l => decide (strAuthToken <:+: l))).length ∧
      (lines.filter (fun l => decide (strAuth <:+: l ∨ strAuthToken <:+: l))).length
        ≤ fs.length ∧
      fs.length ≤
        2 * (lines.filter (fun l => decide (strAuth <:+: l ∨ strAuthToken <:+: l))).length := by
  refine ⟨(lines.enumFrom 1).flatMap (fun kl => lineFindings kl.1 kl.2), ?_, ?_, ?_, ?_⟩
  · simp [CheckNPMRC, h, scanLines_eq]
  · exact findings_length lines 1
  · rw [findings_length lines 1]
    exact (offending_le lines).1
  · rw [findings_length lines 1]
    exact (offending_le lines).2

/-- Witness of the amended C9 at the three-line scenario. -/
theorem C9_witness :
    ∃ fs, CheckNPMRC (fun _ => ReadOutcome.scanned npmrcLines false) ".npmrc".toList
        = Except.ok fs ∧
      fs.length = (npmrcLines.filter (fun l => decide (strAuth <:+: l))).length +
        (npmrcLines.filter (fun l => decide (strAuthToken <:+: l))).length ∧
      (npmrcLines.filter (fun l => decide (strAuth <:+: l ∨ strAuthToken <:+: l))).length
        ≤ fs.length ∧
      fs.length ≤
        2 * (npmrcLines.filter
          (fun l => decide (strAuth <:+: l ∨ strAuthToken <:+: l))).length :=
  C9_findings_count (fun _ => ReadOutcome.scanned npmrcLines false) ".npmrc".toList
    npmrcLines rfl

/-- C10: for a checker built from any rule list and for every path, the rule loop
returns some list `rv`, and: when the file name is `.npmrc` and the scan succeeds,
`CheckFile` returns `rv` followed by one violation per finding, in order, with the
path, the finding as caption and an empty description; when the file name is
`.npmrc` the result depends on what the scanner reads; when it is not `.npmrc`,
`CheckFile` returns `rv` alone whatever the file system holds. -/
theorem C10_npmrc_findings_appended (rules : List Rule) :
    ∃ fc, NewFileChecker (RulesFile.parsed rules) = Except.ok fc ∧
      ∀ path : Str, ∃ rv, ruleViolations fc path = some rv ∧
        (Base path = strNpmrc → ∀ (fsys : Str → ReadOutcome) (fs : List Str),
          CheckNPMRC fsys path = Except.ok fs →
          CheckFile fc fsys path = some (rv ++ fs.map (fun v => ⟨path, v, []⟩))) ∧
        (Base path = strNpmrc →
          CheckFile fc (fun _ => ReadOutcome.scanned [strAuth] false) path ≠
            CheckFile fc (fun _ => ReadOutcome.scanned [] false) path) ∧
        (Base path ≠ strNpmrc → ∀ fsys : Str → ReadOutcome,
          CheckFile fc fsys path = some rv) := by
  obtain ⟨fc, h1, -⟩ := NewFileChecker_ok rules
  refine ⟨fc, h1, fun path => ?_⟩
  obtain ⟨fc2, h3, h4⟩ := ruleViolations_ok rules path
  have hfc : fc2 = fc := by
    rw [h1] at h3
    exact (Except.ok.inj h3).symm
  subst hfc
  refine ⟨_, h4, ?_, ?_, ?_⟩
  · intro hb fsys fs hfs
    simp only [CheckFile, h4, hb, if_true, hfs, foldl_snoc_map]
  · intro hb
    have e1 : CheckNPMRC (fun _ => ReadOutcome.scanned [strAuth] false) path
        = Except.ok [msgAuth 1] := rfl
    have e2 : CheckNPMRC (fun _ => ReadOutcome.scanned [] false) path
        = Except.ok [] := rfl
    simp only [CheckFile, h4, hb, if_true, e1, e2, foldl_snoc_map]
    intro h
    have hl := congrArg (fun o => o.map List.length) h
    simp at hl
  · intro hb fsys
    simp only [CheckFile, h4, hb, if_false]

/-- Witness of C10 at the rules of the `.env` example, on the three-line `.npmrc` file
and on a file that is not named `.npmrc`. -/
theorem C10_witness :
    ∃ fc rv, NewFileChecker (RulesFile.parsed envRules) = Except.ok fc ∧
      ruleViolations fc "proj/.npmrc".toList = some rv ∧
      CheckFile fc (fun _ => ReadOutcome.scanned npmrcLines false) "proj/.npmrc".toList =
        some (rv ++ [⟨"proj/.npmrc".toList, "Found _authToken at line 2".toList, []⟩,
          ⟨"proj/.npmrc".toList, "Found _auth token at line 3".toList, []⟩]) ∧
      ∃ rv2, ruleViolations fc "proj/.env".toList = some rv2 ∧
        CheckFile fc (fun _ => ReadOutcome.scanned npmrcLines false) "proj/.env".toList =
          some rv2 := by
  obtain ⟨fc, h1, h2⟩ := C10_npmrc_findings_appended envRules
  obtain ⟨rv, h3, h4, -, -⟩ := h2 "proj/.npmrc".toList
  obtain ⟨rv2, h5, -, -, h6⟩ := h2 "proj/.env".toList
  exact ⟨fc, rv, h1, h3,
    h4 (by decide) (fun _ => ReadOutcome.scanned npmrcLines false) _ rfl,
    rv2, h5, h6 (by decide) _⟩

/-- C11: when the scan of a path named `.npmrc` fails, because the file cannot be
opened or because reading it ends with an error, `CheckNPMRC` returns an error and no
findings, and `CheckFile` returns exactly the violations derived from the rules for
the path string. -/
theorem C11_scan_failure_is_swallowed (rules : List Rule) (fsys : Str → ReadOutcome)
    (path : Str) (hb : Base path = strNpmrc)
    (hfail : fsys path = ReadOutcome.openError ∨
      ∃ lines, fsys path = ReadOutcome.scanned lines true) :
    (∃ e, CheckNPMRC fsys path = Except.error e) ∧
    ∃ fc, NewFileChecker (RulesFile.parsed rules) = Except.ok fc ∧
      ruleViolations fc path =
        some ((rules.filter (fun r => ruleApplies r path)).map (violationOf path)) ∧
      CheckFile fc fsys path =
        some ((rules.filter (fun r => ruleApplies r path)).map (violationOf path)) := by
  have herr : ∃ e, CheckNPMRC fsys path = Except.error e := by
    rcases hfail with h | ⟨lines, h⟩
    · exact ⟨NpmrcError.openNpmrc, by simp [CheckNPMRC, h]⟩
    · exact ⟨NpmrcError.readNpmrc, by simp [CheckNPMRC, h]⟩
  refine ⟨herr, ?_⟩
  obtain ⟨e, he⟩ := herr
  obtain ⟨fc, h1, h2⟩ := ruleViolations_ok rules path
  exact ⟨fc, h1, h2, by simp only [CheckFile, h2, hb, if_true, he]⟩

/-- Witness of C11: a missing `.npmrc` and one whose read fails after two lines. -/
theorem C11_witness :
    ((∃ e, CheckNPMRC (fun _ => ReadOutcome.openError) "proj/.npmrc".toList
        = Except.error e) ∧
      ∃ fc, NewFileChecker (RulesFile.parsed envRules) = Except.ok fc ∧
        ruleViolations fc "proj/.npmrc".toList =
          some ((envRules.filter (fun r => ruleApplies r "proj/.npmrc".toList)).map
            (violationOf "proj/.npmrc".toList)) ∧
        CheckFile fc (fun _ => ReadOutcome.openError) "proj/.npmrc".toList =
          some ((envRules.filter (fun r => ruleApplies r "proj/.npmrc".toList)).map
            (violationOf "proj/.npmrc".toList))) ∧
    ((∃ e, CheckNPMRC (fun _ => ReadOutcome.scanned npmrcLines true) ".npmrc".toList
        = Except.error e) ∧
      ∃ fc, NewFileChecker (RulesFile.parsed envRules) = Except.ok fc ∧
        ruleViolations fc ".npmrc".toList =
          some ((envRules.filter (fun r => ruleApplies r ".npmrc".toList)).map
            (violationOf ".npmrc".toList)) ∧
        CheckFile fc (fun _ => ReadOutcome.scanned npmrcLines true) ".npmrc".toList =
          some ((envRules.filter (fun r => ruleApplies r ".npmrc".toList)).map
            (violationOf ".npmrc".toList))) :=
  ⟨C11_scan_failure_is_swallowed envRules (fun _ => ReadOutcome.openError)
      "proj/.npmrc".toList (by decide) (Or.inl rfl),
    C11_scan_failure_is_swallowed envRules (fun _ => ReadOutcome.scanned npmrcLines true)
      ".npmrc".toList (by decide) (Or.inr ⟨npmrcLines, rfl⟩)⟩

/-- C12: for a checker built from any rule list, `CheckFile` returns for every path,
`CheckFiles` has a run to the end on every list of paths, and whatever the order in
which the batches arrive, the multiset of the returned violations is the sum over
the entries of the list of the multisets of their `CheckFile` results; so the results
for two lists that are permutations of each other, such as `[A, B]` and `[B, A]`, are
equal as multisets. -/
theorem C12_checkFiles_multiset (rules : List Rule) (fsys : Str → ReadOutcome) :
    ∃ fc, NewFileChecker (RulesFile.parsed rules) = Except.ok fc ∧
      (∀ p, CheckFile fc fsys p = some (checkFileList fc fsys p)) ∧
      (∀ files : List Str,
        (∃ result, CheckFilesReturns fc fsys files result) ∧
        (∀ result, CheckFilesReturns fc fsys files result →
          (result : Multiset Violation) =
            (files.map (fun p => (checkFileList fc fsys p : Multiset Violation))).sum) ∧
        (∀ (files2 : List Str) (r1 r2 : List Violation), files2.Perm files →
          CheckFilesReturns fc fsys files r1 → CheckFilesReturns fc fsys files2 r2 →
          (r1 : Multiset Violation) = r2)) ∧
      (∀ (A B : Str) (r1 r2 : List Violation),
        CheckFilesReturns fc fsys [A, B] r1 → CheckFilesReturns fc fsys [B, A] r2 →
        (r1 : Multiset Violation) = r2) := by
  obtain ⟨fc, h1, htot⟩ := CheckFile_total rules
  have hsome : ∀ p, CheckFile fc fsys p = some (checkFileList fc fsys p) := by
    intro p
    obtain ⟨vs, hvs⟩ := htot fsys p
    rw [checkFileList_of_some fc fsys p vs hvs, hvs]
  have hsum : ∀ (files : List Str) (result : List Violation),
      CheckFilesReturns fc fsys files result →
      (result : Multiset Violation) =
        (files.map (fun p => (checkFileList fc fsys p : Multiset Violation))).sum := by
    intro files result hres
    obtain ⟨order, hperm, hcat⟩ := CheckFilesReturns_blocks fc fsys files result hres
    rw [← coe_flatMap_eq_sum, hcat]
    exact Multiset.coe_eq_coe.mpr (hperm.flatMap_right _)
  have hperm : ∀ (files files2 : List Str) (r1 r2 : List Violation), files2.Perm files →
      CheckFilesReturns fc fsys files r1 → CheckFilesReturns fc fsys files2 r2 →
      (r1 : Multiset Violation) = r2 := by
    intro files files2 r1 r2 hp hr1 hr2
    rw [hsum files r1 hr1, hsum files2 r2 hr2, ← coe_flatMap_eq_sum, ← coe_flatMap_eq_sum]
    exact Multiset.coe_eq_coe.mpr (hp.symm.flatMap_right _)
  refine ⟨fc, h1, hsome, fun files => ⟨?_, hsum files, hperm files⟩, ?_⟩
  · exact CheckFilesReturns_exists fc fsys files (fun p _ => htot fsys p)
  · intro A B r1 r2 hr1 hr2
    exact hperm [A, B] [B, A] r1 r2 (List.Perm.swap A B []) hr1 hr2

/-- Witness of C12: with the rules of the `.env` example, a run in which the batch of
the second file arrives first. -/
theorem C12_witness :
    NewFileChecker (RulesFile.parsed envRules) = Except.ok envChecker ∧
      CheckFilesReturns envChecker (fun _ => ReadOutcome.openError)
        [".env".toList, "x/.env".toList]
        (envViolations "x/.env".toList ++ envViolations ".env".toList) ∧
      ((envViolations "x/.env".toList ++ envViolations ".env".toList : List Violation) :
          Multiset Violation) =
        ([".env".toList, "x/.env".toList].map (fun p =>
          (checkFileList envChecker (fun _ => ReadOutcome.openError) p :
            Multiset Violation))).sum := by
  obtain ⟨fc, h1, -, h3, -⟩ :=
    C12_checkFiles_multiset envRules (fun _ => ReadOutcome.openError)
  have hfc : fc = envChecker := (Except.ok.inj h1).symm
  subst hfc
  exact ⟨rfl, envRun_second_first, (h3 _).2.1 _ envRun_second_first⟩

/-- C13: for a checker built from any rule list and every run of `CheckFiles` to the
end, the result is the concatenation, over the entries of the path list taken in some
order, of their `CheckFile` results: each entry gives one contiguous block, in the
order of `CheckFile`, and an entry whose `CheckFile` result is empty adds nothing,
the result being the concatenation of the non-empty blocks alone. -/
theorem C13_checkFiles_blocks (rules : List Rule) (fsys : Str → ReadOutcome) :
    ∃ fc, NewFileChecker (RulesFile.parsed rules) = Except.ok fc ∧
      (∀ p, CheckFile fc fsys p = some (checkFileList fc fsys p)) ∧
      ∀ (files : List Str) (result : List Violation),
        CheckFilesReturns fc fsys files result →
        (∃ order : List Str, order.Perm files ∧
          result = order.flatMap (checkFileList fc fsys) ∧
          result = (order.filter (fun p => decide (checkFileList fc fsys p ≠ []))).flatMap
            (checkFileList fc fsys)) ∧
        (∀ p ∈ files, ∃ before after : List Violation,
          result = before ++ checkFileList fc fsys p ++ after) ∧
        ((∀ p ∈ files, checkFileList fc fsys p = []) → result = []) := by
  obtain ⟨fc, h1, htot⟩ := CheckFile_total rules
  have hsome : ∀ p, CheckFile fc fsys p = some (checkFileList fc fsys p) := by
    intro p
    obtain ⟨vs, hvs⟩ := htot fsys p
    rw [checkFileList_of_some fc fsys p vs hvs, hvs]
  refine ⟨fc, h1, hsome, fun files result hres => ?_⟩
  obtain ⟨order, hperm, hcat⟩ := CheckFilesReturns_blocks fc fsys files result hres
  refine ⟨⟨order, hperm, hcat, ?_⟩, ?_, ?_⟩
  · rw [hcat]
    exact flatMap_filter_nonempty _ order
  · intro p hp
    obtain ⟨o1, o2, ho⟩ := List.append_of_mem (hperm.mem_iff.mpr hp)
    refine ⟨o1.flatMap (checkFileList fc fsys), o2.flatMap (checkFileList fc fsys), ?_⟩
    rw [hcat, ho]
    simp
  · intro hall
    rw [hcat]
    simp only [List.flatMap_eq_nil_iff]
    intro p hp
    exact hall p (hperm.mem_iff.mp hp)

/-- Witness of C13: in the run where the batch of the second file arrives first, the
two violations of each file stay together and in order; the file without violations
adds nothing. -/
theorem C13_witness :
    (∃ order : List Str, order.Perm [".env".toList, "x/.env".toList] ∧
      envViolations "x/.env".toList ++ envViolations ".env".toList =
        order.flatMap (checkFileList envChecker (fun _ => ReadOutcome.openError)) ∧
      envViolations "x/.env".toList ++ envViolations ".env".toList =
        (order.filter (fun p => decide
          (checkFileList envChecker (fun _ => ReadOutcome.openError) p ≠ []))).flatMap
          (checkFileList envChecker (fun _ => ReadOutcome.openError))) ∧
    (∀ p ∈ [".env".toList, "x/.env".toList], ∃ before after : List Violation,
      envViolations "x/.env".toList ++ envViolations ".env".toList =
        before ++ checkFileList envChecker (fun _ => ReadOutcome.openError) p ++ after) := by
  obtain ⟨fc, h1, -, h3⟩ := C13_checkFiles_blocks envRules (fun _ => ReadOutcome.openError)
  have hfc : fc = envChecker := (Except.ok.inj h1).symm
  subst hfc
  obtain ⟨h4, h5, -⟩ := h3 _ _ envRun_second_first
  exact ⟨h4, h5⟩

/-- Counterexample to C14: a rule list with a regex-kind rule whose pattern is empty
does not make `NewFileChecker` fail; the checker is returned and the rule then
matches every path. -/
theorem C14_counterexample :
    emptyRegexRule.Typ = strRegex ∧ emptyRegexRule.Pattern = [] ∧
    NewFileChecker (RulesFile.parsed [emptyRegexRule]) =
      Except.ok ⟨[emptyRegexRule], [([], [])]⟩ ∧
    CheckFile ⟨[emptyRegexRule], [([], [])]⟩ (fun _ => ReadOutcome.openError)
        "README".toList =
      some [⟨"README".toList, "Everything".toList, []⟩] :=
  ⟨by decide, rfl, rfl, by decide⟩

/-- C14, amended: `NewFileChecker` fails, with the error that carries the rule's
index and without a checker, at the first regex-kind rule whose translated pattern
the regexp compiler rejects; an empty pattern is not rejected, so a rule list whose
regex-kind patterns are all empty yields a checker, and the empty pattern accepts
every value. -/
theorem C14_fails_at_first_rejected_pattern :
    (∀ file, NewFileChecker file = NewFileCheckerWith Compile file) ∧
    (∀ (compile : Str → Option Regexp) (before : List Rule) (rule : Rule)
      (after : List Rule), rule.Typ = strRegex →
      compile (translatePattern rule.Pattern) = none →
      (∀ r ∈ before, r.Typ = strRegex →
        ∃ re, compile (translatePattern r.Pattern) = some re) →
      NewFileCheckerWith compile (RulesFile.parsed (before ++ rule :: after)) =
        Except.error (InitError.invalidPattern before.length)) ∧
    (∀ rules : List Rule, (∀ r ∈ rules, r.Typ = strRegex → r.Pattern = []) →
      ∃ fc, NewFileChecker (RulesFile.parsed rules) = Except.ok fc) ∧
    (∀ v : Str, patternAccepts [] v = true) := by
  refine ⟨NewFileChecker_eq_with, ?_, ?_, ?_⟩
  · intro compile before rule after ht hbad hgood
    have h := compileRulesWith_fail compile before rule after 0 [] ht hbad hgood
    simp only [Nat.zero_add] at h
    simp only [NewFileCheckerWith, h]
  · intro rules _
    obtain ⟨fc, h1, -⟩ := NewFileChecker_ok rules
    exact ⟨fc, h1⟩
  · intro v
    rw [patternAccepts_eq, patternInsts_nil]
    cases v <;> simp [MatchString, matchFrom, matchHere]

/-- Witness of the amended C14: with a compiler that rejects every pattern the error
names rule 1, the first regex-kind rule; with the real compiler the rule list holding
the empty regex pattern yields a checker. -/
theorem C14_witness :
    NewFileCheckerWith (fun _ => none)
        (RulesFile.parsed ([noExtensionRule] ++ idRsaRule :: [anchoredEnvRule])) =
      Except.error (InitError.invalidPattern [noExtensionRule].length) ∧
    ∃ fc, NewFileChecker (RulesFile.parsed [emptyRegexRule]) = Except.ok fc :=
  ⟨C14_fails_at_first_rejected_pattern.2.1 (fun _ => none) [noExtensionRule] idRsaRule
      [anchoredEnvRule] (by decide) rfl
      (by
        intro r hr ht
        simp only [List.mem_singleton] at hr
        subst hr
        exact absurd ht (by decide)),
    C14_fails_at_first_rejected_pattern.2.2.1 [emptyRegexRule] (by decide)⟩

/-- C15: for every checker that `NewFileChecker` returns, the keys of the registry are
pairwise distinct and are exactly the patterns of the regex-kind rules, so every
regex-kind rule finds its compiled matcher and `CheckFile` never meets a missing
one. -/
theorem C15_registry_keys (file : RulesFile) (fc : FileChecker)
    (h : NewFileChecker file = Except.ok fc) :
    ∃ rules, file = RulesFile.parsed rules ∧ fc.rules = rules ∧
      fc.patterns.keys.Nodup ∧
      (∀ k, k ∈ fc.patterns.keys ↔ k ∈ regexPatterns rules) ∧
      (∀ r ∈ fc.rules, r.Typ = strRegex → ∃ re, fc.patterns.get r.Pattern = some re) ∧
      (∀ (fsys : Str → ReadOutcome) (path : Str), ∃ vs, CheckFile fc fsys path = some vs) := by
  cases file with
  | unreadable => simp [NewFileChecker] at h
  | malformed => simp [NewFileChecker] at h
  | parsed rules =>
    obtain ⟨fc2, h1, h2, h3⟩ := NewFileChecker_ok rules
    obtain ⟨fc3, h4, h5⟩ := CheckFile_total rules
    have e2 : fc2 = fc := Except.ok.inj (h1.symm.trans h)
    have e3 : fc3 = fc := Except.ok.inj (h4.symm.trans h)
    rw [e2] at h2 h3
    rw [e3] at h5
    obtain ⟨m2, hm, -⟩ := compileRules_ok rules 0 []
    have hfc : fc = ⟨rules, m2⟩ := by
      simp only [NewFileChecker, hm] at h
      exact (Except.ok.inj h).symm
    have hk := compileRules_keys rules 0 [] m2 hm (by simp [Registry.keys])
    refine ⟨rules, rfl, h2, ?_, ?_, ?_, h5⟩
    · rw [hfc]; exact hk.1
    · intro k
      rw [hfc]
      simpa [Registry.keys] using hk.2 k
    · intro r hr ht
      rw [h2] at hr
      exact ⟨_, by rw [h3, if_pos (mem_regexPatterns rules r hr ht)]⟩

/-- Witness of C15 at the checker of the `.env` example. -/
theorem C15_witness :
    ∃ rules, RulesFile.parsed envRules = RulesFile.parsed rules ∧ envChecker.rules = rules ∧
      envChecker.patterns.keys.Nodup ∧
      (∀ k, k ∈ envChecker.patterns.keys ↔ k ∈ regexPatterns rules) ∧
      (∀ r ∈ envChecker.rules, r.Typ = strRegex →
        ∃ re, envChecker.patterns.get r.Pattern = some re) ∧
      (∀ (fsys : Str → ReadOutcome) (path : Str),
        ∃ vs, CheckFile envChecker fsys path = some vs) :=
  C15_registry_keys (RulesFile.parsed envRules) envChecker rfl

/-- C16: for every pattern, quoting followed by the three replacements gives the same
string as the single left-to-right pass that maps backslash-A to `^`, backslash-z to
`$`, backslash-dot to the escaped literal dot and every other character to its
escaped literal form. -/
theorem C16_translation_is_single_pass :
    (∀ p : Str, translatePattern p = onePass p) ∧
    translatePattern "\\\\A.\\.+\\z\\".toList = "\\\\^\\.\\.\\+$\\\\".toList ∧
    onePass "\\\\A.\\.+\\z\\".toList = "\\\\^\\.\\.\\+$\\\\".toList := by
  refine ⟨fun p => ?_, by decide, by decide⟩
  rw [translatePattern_eq_pass, onePass_eq_pass]

/-- C17: for a regex-kind rule whose pattern contains no backslash, the stored
matcher accepts a value exactly when the pattern occurs in it as a contiguous
substring, and so does the rule on the facet its part selects; with the empty
pattern the rule matches every path. -/
theorem C17_backslash_free_pattern_is_substring_search (rules : List Rule) (r : Rule)
    (hr : r ∈ rules) (ht : r.Typ = strRegex) (hp : '\\' ∉ r.Pattern) :
    ∃ fc re, NewFileChecker (RulesFile.parsed rules) = Except.ok fc ∧
      fc.patterns.get r.Pattern = some re ∧
      (∀ v, MatchString re v = true ↔ r.Pattern <:+: v) ∧
      (r.Part = strFilename ∨ r.Part = strExtension ∨ r.Part = strPath →
        ∀ path, ruleMatch fc.patterns r (Base path) (extOf path) path =
          some (decide (r.Pattern <:+: selectFacet r.Part path))) ∧
      (r.Pattern = [] → r.Part = strFilename ∨ r.Part = strExtension ∨ r.Part = strPath →
        ∀ path, ruleMatch fc.patterns r (Base path) (extOf path) path = some true) := by
  obtain ⟨fc, h1, -, h3⟩ := NewFileChecker_ok rules
  have hget : fc.patterns.get r.Pattern = some (patternInsts r.Pattern) := by
    rw [h3, if_pos (mem_regexPatterns rules r hr ht)]
  have hmatch : ∀ v, MatchString (patternInsts r.Pattern) v = true ↔ r.Pattern <:+: v := by
    intro v
    rw [patternInsts_noBackslash _ hp]
    exact MatchString_lit _ v
  have hrule : r.Part = strFilename ∨ r.Part = strExtension ∨ r.Part = strPath →
      ∀ path, ruleMatch fc.patterns r (Base path) (extOf path) path =
        some (decide (r.Pattern <:+: selectFacet r.Part path)) := by
    intro hpart path
    rw [ruleMatch_eq fc.patterns r path (fun _ => hget)]
    have hparts : (decide (r.Part = strFilename) || decide (r.Part = strExtension) ||
        decide (r.Part = strPath)) = true := by
      rcases hpart with h | h | h <;> simp [h]
    simp only [ruleApplies, hparts, Bool.true_and, ht, if_true, patternAccepts_eq]
    congr 1
    rw [Bool.eq_iff_iff, hmatch]
    simp
  refine ⟨fc, patternInsts r.Pattern, h1, hget, hmatch, hrule, ?_⟩
  intro hempty hpart path
  rw [hrule hpart path, hempty]
  simp

/-- Witness of C17 at the rule with the empty regex pattern. -/
theorem C17_witness :
    ∃ fc re, NewFileChecker (RulesFile.parsed [emptyRegexRule]) = Except.ok fc ∧
      fc.patterns.get emptyRegexRule.Pattern = some re ∧
      (∀ v, MatchString re v = true ↔ emptyRegexRule.Pattern <:+: v) ∧
      (∀ path, ruleMatch fc.patterns emptyRegexRule (Base path) (extOf path) path =
          some (decide (emptyRegexRule.Pattern <:+: selectFacet emptyRegexRule.Part path))) ∧
      (∀ path, ruleMatch fc.patterns emptyRegexRule (Base path) (extOf path) path
          = some true) := by
  obtain ⟨fc, re, h1, h2, h3, h4, h5⟩ :=
    C17_backslash_free_pattern_is_substring_search [emptyRegexRule] emptyRegexRule
      (by decide) (by decide) (by decide)
  exact ⟨fc, re, h1, h2, h3, h4 (by decide), h5 rfl (by decide)⟩

/-- Counterexample to C18: the pattern of 33554433 letters `a` is valid UTF-8 and
translates to itself, yet the compiler with the limits of the Go parser rejects it
(`expression too large`), and `NewFileChecker`'s loop over that compiler returns the
invalid-pattern error for rule 1 instead of a checker. -/
theorem C18_counterexample :
    hugeRule.Pattern = List.replicate (maxRunes + 1) 'a' ∧ maxRunes + 1 = 33554433 ∧
    translatePattern hugeRule.Pattern = hugeRule.Pattern ∧
    CompileWithLimits (translatePattern hugeRule.Pattern) = none ∧
    NewFileCheckerWith CompileWithLimits (RulesFile.parsed [noExtensionRule, hugeRule]) =
      Except.error (InitError.invalidPattern 1) :=
  ⟨rfl, rfl, translatePattern_replicate_a (maxRunes + 1), hugeRule_bad, hugeRule_fails⟩

/-- C18, amended: every translated pattern is a concatenation of tokens, each a
non-metacharacter, a backslash followed by a metacharacter, `^` or `$`, and every
such concatenation is well formed; the compiler rejects a translated pattern only
when it is beyond the size limits of the parser, never when the pattern has fewer
than 3355442 characters; `NewFileChecker` returns a checker whenever every regex-kind
pattern is within the limits, and the invalid-pattern error names a regex-kind rule
whose pattern is beyond them. -/
theorem C18_pattern_compiles_within_size_limits :
    (∀ p : Str, ∃ ts : List Str, (∀ t ∈ ts, IsToken t) ∧ translatePattern p = ts.flatten) ∧
    (∀ ts : List Str, (∀ t ∈ ts, IsToken t) → ∃ re, Compile ts.flatten = some re) ∧
    (∀ p : Str, CompileWithLimits (translatePattern p) =
      if parserAccepts (patternInsts p) then some (patternInsts p) else none) ∧
    (∀ p : Str, p.length < 3355442 →
      CompileWithLimits (translatePattern p) = some (patternInsts p)) ∧
    (∀ rules : List Rule,
      (∀ r ∈ rules, r.Typ = strRegex → parserAccepts (patternInsts r.Pattern) = true) →
      ∃ fc, NewFileCheckerWith CompileWithLimits (RulesFile.parsed rules) = Except.ok fc ∧
        NewFileChecker (RulesFile.parsed rules) = Except.ok fc) ∧
    (∀ (rules : List Rule) (e : InitError),
      NewFileCheckerWith CompileWithLimits (RulesFile.parsed rules) = Except.error e →
      ∃ before rule after, rules = before ++ rule :: after ∧
        e = InitError.invalidPattern before.length ∧ rule.Typ = strRegex ∧
        parserAccepts (patternInsts rule.Pattern) = false) := by
  refine ⟨?_, Compile_tokens, CompileWithLimits_translatePattern, ?_, ?_, ?_⟩
  · intro p
    rw [translatePattern_eq_pass]
    exact pass_tokens p
  · intro p hp
    have hl := patternInsts_length_le p
    have ha : parserAccepts (patternInsts p) = true :=
      parserAccepts_of_small _ (by simp only [maxSize]; omega)
    rw [CompileWithLimits_translatePattern, ha]
    rfl
  · intro rules h
    obtain ⟨fc, h1, -⟩ := NewFileChecker_ok rules
    refine ⟨fc, ?_, h1⟩
    have h2 := h1
    simp only [NewFileChecker] at h2
    simp only [NewFileCheckerWith, compileRulesWith_limits_eq rules 0 [] h]
    exact h2
  · intro rules e h
    simp only [NewFileCheckerWith] at h
    cases hc : compileRulesWith CompileWithLimits 0 rules [] with
    | ok m => rw [hc] at h; simp at h
    | error e2 =>
      rw [hc] at h
      have he : e2 = e := by simpa using h
      obtain ⟨before, rule, after, h1, h2, h3, h4⟩ :=
        compileRulesWith_limits_error rules 0 [] e2 hc
      refine ⟨before, rule, after, h1, ?_, h3, h4⟩
      rw [← he, h2, Nat.zero_add]

/-- Witness of the amended C18: four tokens compile; the anchored `.env` pattern is
within the limits; the rules of the `.env` example give the same checker with and
without the limits; the error on the oversized example names the oversized rule. -/
theorem C18_witness :
    (∃ re, Compile ([['^'], ['a'], ['\\', '.'], ['$']] : List Str).flatten = some re) ∧
    CompileWithLimits (translatePattern "\\A.env\\z".toList) =
      some (patternInsts "\\A.env\\z".toList) ∧
    (∃ fc, NewFileCheckerWith CompileWithLimits (RulesFile.parsed envRules) = Except.ok fc ∧
      NewFileChecker (RulesFile.parsed envRules) = Except.ok fc) ∧
    (∃ before rule after, [noExtensionRule, hugeRule] = before ++ rule :: after ∧
      InitError.invalidPattern 1 = InitError.invalidPattern before.length ∧
      rule.Typ = strRegex ∧ parserAccepts (patternInsts rule.Pattern) = false) :=
  ⟨C18_pattern_compiles_within_size_limits.2.1 [['^'], ['a'], ['\\', '.'], ['$']] (by
      intro t ht
      simp only [List.mem_cons, List.mem_singleton, List.not_mem_nil, or_false] at ht
      rcases ht with h | h | h | h
      · exact Or.inr (Or.inr (Or.inl h))
      · exact Or.inl ⟨'a', by decide, h⟩
      · exact Or.inr (Or.inl ⟨'.', by decide, h⟩)
      · exact Or.inr (Or.inr (Or.inr h))),
    C18_pattern_compiles_within_size_limits.2.2.2.1 "\\A.env\\z".toList (by decide),
    C18_pattern_compiles_within_size_limits.2.2.2.2.1 envRules (by decide),
    C18_pattern_compiles_within_size_limits.2.2.2.2.2 [noExtensionRule, hugeRule]
      (InitError.invalidPattern 1) hugeRule_fails⟩

/-- C19: a rule whose part is none of `filename`, `extension`, `path` never matches,
whatever its kind, its pattern and the registry; the checker built from a rule list
that contains it returns for every path the same violations as the checker built
from the list without it. -/
theorem C19_unknown_part_never_matches (before after : List Rule) (rule : Rule)
    (h1 : rule.Part ≠ strFilename) (h2 : rule.Part ≠ strExtension)
    (h3 : rule.Part ≠ strPath) :
    (∀ (patterns : Registry) (filename ext path : Str),
      ruleMatch patterns rule filename ext path = some false) ∧
    ∃ fc fc2, NewFileChecker (RulesFile.parsed (before ++ rule :: after)) = Except.ok fc ∧
      NewFileChecker (RulesFile.parsed (before ++ after)) = Except.ok fc2 ∧
      ∀ (fsys : Str → ReadOutcome) (path : Str),
        ∃ vs, CheckFile fc fsys path = some vs ∧ CheckFile fc2 fsys path = some vs := by
  refine ⟨fun patterns filename ext path => by simp [ruleMatch, h1, h2, h3], ?_⟩
  obtain ⟨fc, hfc, htot⟩ := CheckFile_total (before ++ rule :: after)
  obtain ⟨fc2, hfc2, -⟩ := NewFileChecker_ok (before ++ after)
  refine ⟨fc, fc2, hfc, hfc2, fun fsys path => ?_⟩
  obtain ⟨vs, hvs⟩ := htot fsys path
  refine ⟨vs, hvs, ?_⟩
  obtain ⟨fa, ha1, ha2⟩ := ruleViolations_ok (before ++ rule :: after) path
  obtain ⟨fb, hb1, hb2⟩ := ruleViolations_ok (before ++ after) path
  have ea : fa = fc := Except.ok.inj (ha1.symm.trans hfc)
  have eb : fb = fc2 := Except.ok.inj (hb1.symm.trans hfc2)
  rw [ea] at ha2
  rw [eb] at hb2
  have hno : ruleApplies rule path = false := by simp [ruleApplies, h1, h2, h3]
  have hrv : ruleViolations fc path = ruleViolations fc2 path := by
    rw [ha2, hb2]
    simp [List.filter_append, List.filter, hno]
  rw [← CheckFile_congr fc fc2 fsys path hrv]
  exact hvs

/-- Witness of C19 at the rules of the `.env` example followed by a rule on the
unknown part `basename`. -/
theorem C19_witness :
    (∀ (patterns : Registry) (filename ext path : Str),
      ruleMatch patterns unknownPartRule filename ext path = some false) ∧
    ∃ fc fc2, NewFileChecker (RulesFile.parsed (envRules ++ unknownPartRule :: [])) =
        Except.ok fc ∧
      NewFileChecker (RulesFile.parsed (envRules ++ [])) = Except.ok fc2 ∧
      ∀ (fsys : Str → ReadOutcome) (path : Str),
        ∃ vs, CheckFile fc fsys path = some vs ∧ CheckFile fc2 fsys path = some vs :=
  C19_unknown_part_never_matches envRules [] unknownPartRule (by decide) (by decide)
    (by decide)

end Bingo
